import Mathlib

/-!
# Verification of the garbled-circuit engine and compiler of the mpc repository

This file shallowly embeds, in Lean 4, the parts of the repository that the
verified claims are about:

* the garbler and evaluator of the `circuit` package (`garble.go`,
  `eval.go`): wire labels, the dual-key garbled-row cipher, point-and-permute
  row ordering, Free-XOR label assignment;
* the Boolean-circuit builder of the `compiler/circuits` package
  (`compiler.go`, `circ_comparators.go`): wires, gates, zero/one wires,
  `ShiftLeft`, and the LT/LE comparator constructions;
* the SSA generator of `compiler/ast/ssagen.go`: the `For.SSA` unroll loop
  and the `If.SSA` branch compilation;
* the constant evaluator of `compiler/ast/eval.go` (`Binary.Eval` over
  `int32` and `uint64` constants);
* the type parser of `types/parse.go`.

The `ot.Label` primitive operations (`S`, `SetS`, `Xor`, `Mul2`, `Mul4`,
`NewTweak`) and the plain Boolean semantics of circuit gates are not part of
the provided sources (only their callers are); those definitions are modelled
from the specification and are marked as such in their doc comments.
-/

namespace MPC

/-! ## Labels (modelled from the spec) -/

/-- Modelled from the spec: labels are k-bit opaque bitstrings with k = 128
for garbling.  The `ot.Label` implementation is not under the provided
sources; we represent a label as a natural number below `2 ^ 128`, with
bitwise XOR as `Label.Xor`. -/
def labelBits : Nat := 128

/-- The modulus `2 ^ 128` used by the carry-less label shifts. -/
def labelMask : Nat := 2 ^ labelBits

/-- Modelled from the spec: the permute-and-point bit ("S bit") is the least
significant bit of a label. -/
def Label.S (l : Nat) : Bool := l.testBit 0

/-- Modelled from the spec: `SetS` sets the permute-and-point bit of a label
to the given value, leaving the other bits unchanged. -/
def Label.setS (l : Nat) (b : Bool) : Nat :=
  2 * (l / 2) + (if b then 1 else 0)

/-- Modelled from the spec: `Mul2` is the carry-less doubling of a 128-bit
label (shift left by one, dropping the carried-out bit). -/
def Label.mul2 (l : Nat) : Nat := (l * 2) % labelMask

/-- Modelled from the spec: `Mul4` is the carry-less quadrupling of a 128-bit
label (shift left by two, dropping the carried-out bits). -/
def Label.mul4 (l : Nat) : Nat := (l * 4) % labelMask

/-- Modelled from the spec: `NewTweak t` embeds the 32-bit gate identifier
`t` into a label. -/
def Label.tweak (t : Nat) : Nat := t

/-- A garbled wire: the pair of labels (`ot.Wire` with `Label0`, `Label1`). -/
structure GWire where
  l0 : Nat
  l1 : Nat
deriving DecidableEq, Repr

/-! ## The garbler (`garble.go`, package `circuit`) -/

/-- The five gate operations of the `circuit` package. -/
inductive GateOp where
  | XOR
  | XNOR
  | AND
  | OR
  | INV
deriving DecidableEq, Repr

/-- String form of a gate operation, used in error messages. -/
def GateOp.str : GateOp → String
  | .XOR => "XOR"
  | .XNOR => "XNOR"
  | .AND => "AND"
  | .OR => "OR"
  | .INV => "INV"

/-- A gate of the `circuit` package: operation, two input wire numbers, an
output wire number, and the gate identifier used as garbling tweak. -/
structure Gate where
  op : GateOp
  input0 : Nat
  input1 : Nat
  output : Nat
  id : Nat
deriving DecidableEq, Repr

/-- `Gate.Inputs`: an `INV` gate has only `input0`; every other gate has two
inputs. -/
def Gate.Inputs (g : Gate) : List Nat :=
  match g.op with
  | .INV => [g.input0]
  | _ => [g.input0, g.input1]

/-- The `idx` function of `garble.go`: the point-and-permute row index
`(S(l0) << 1) | S(l1)` of two (possibly absent) labels. -/
def rowIdx : Option Nat → Option Nat → Nat
  | none, none => 0
  | none, some l1 => if Label.S l1 then 1 else 0
  | some l0, none => if Label.S l0 then 1 else 0
  | some l0, some l1 =>
    (if Label.S l0 then 2 else 0) ||| (if Label.S l1 then 1 else 0)

/-- The `Enc` function type of `garble.go`: `enc a b c t` encrypts output
label `c` under input labels `a` and (for binary gates) `b` with tweak `t`.
Byte strings are identified with the labels they encode. -/
def EncFn : Type := Nat → Option Nat → Nat → Nat → Nat

/-- `makeK` of `garble.go`: the dual-key derivation
`K = double(a) XOR quad(b) XOR tweak(t)`; `b` is absent for `INV` rows. -/
def makeK (a : Nat) (b : Option Nat) (t : Nat) : Nat :=
  let k := Label.mul2 a
  let k := match b with
    | some bv => k ^^^ Label.mul4 bv
    | none => k
  k ^^^ Label.tweak t

/-- `encrypt` of `garble.go`: `AES_alg(K) XOR K XOR c` with
`K = makeK a b t`.  `alg` is the fixed-key AES block-encryption function. -/
def encrypt (alg : Nat → Nat) (a : Nat) (b : Option Nat) (c : Nat) (t : Nat) :
    Nat :=
  let k := makeK a b t
  let crypted := alg k
  crypted ^^^ k ^^^ c

/-- `decrypt` of `garble.go`: recover `c` from a garbled row by XORing with
`AES_alg(K)` and `K`. -/
def decrypt (alg : Nat → Nat) (a : Nat) (b : Option Nat) (t : Nat)
    (encrypted : Nat) : Nat :=
  let k := makeK a b t
  let crypted := alg k
  encrypted ^^^ crypted ^^^ k

/-- A `TableEntry` of `garble.go`: a row index and the row ciphertext. -/
structure TableEntry where
  index : Nat
  data : Nat
deriving DecidableEq, Repr

/-- The `entry` helper of `garble.go`. -/
def entry (enc : EncFn) (a : Nat) (b : Option Nat) (c : Nat) (tweak : Nat) :
    TableEntry :=
  ⟨rowIdx (some a) b, enc a b c tweak⟩

/-- Insert a table entry into a list sorted by ascending `index`. -/
def insertEntry (e : TableEntry) : List TableEntry → List TableEntry
  | [] => [e]
  | f :: fs => if e.index ≤ f.index then e :: f :: fs else f :: insertEntry e fs

/-- `sort.Sort(ByIndex(table))` of `garble.go`: sort the garbled rows by
ascending row index (the indices are pairwise distinct, so any sorting
algorithm produces this result). -/
def sortByIndex : List TableEntry → List TableEntry
  | [] => []
  | e :: es => insertEntry e (sortByIndex es)

/-- The map `ot.Inputs` of wire number to label pair, as an association
list (entries are only ever inserted for absent keys). -/
abbrev WireMap : Type := List (Nat × GWire)

/-- Map lookup. -/
def WireMap.find (m : WireMap) (i : Nat) : Option GWire :=
  List.lookup i m

/-- `makeLabels` of `garble.go`: draw a fresh random label `l0` from the
random stream at position `pos` and pair it with `l1 = l0 XOR r`. -/
def makeLabels (stream : Nat → Nat) (pos : Nat) (r : Nat) : GWire × Nat :=
  let l0 := stream pos
  (⟨l0, l0 ^^^ r⟩, pos + 1)

/-- The input-collection loop of `Gate.Garble`: look up each input wire,
creating fresh labels for wires not yet assigned. -/
def collectInputs (stream : Nat → Nat) (r : Nat) :
    List Nat → WireMap → Nat → List GWire × WireMap × Nat
  | [], m, pos => ([], m, pos)
  | i :: is, m, pos =>
    match m.find i with
    | some w =>
      let (ws, m', pos') := collectInputs stream r is m pos
      (w :: ws, m', pos')
    | none =>
      let (w, pos1) := makeLabels stream pos r
      let (ws, m', pos') := collectInputs stream r is (m ++ [(i, w)]) pos1
      (w :: ws, m', pos')

/-- `Gate.Garble` of `garble.go`: assign labels to the gate's wires and build
the (sorted) garbled table.  Randomness is threaded as a position into the
random label stream.  The `.XOR, _` and binary-gate fallback arms are
unreachable because `Gate.Inputs` returns two inputs for every binary gate. -/
def Gate.Garble (g : Gate) (wires : WireMap) (enc : EncFn) (r : Nat)
    (stream : Nat → Nat) (pos : Nat) :
    Except String (List Nat) × WireMap × Nat :=
  let (inw, m1, pos1) := collectInputs stream r g.Inputs wires pos
  match m1.find g.output with
  | some _ => (.error "gate output already set", m1, pos1)
  | none =>
    let wp : GWire × Nat :=
      match g.op, inw with
      | .XOR, [a, b] => (⟨a.l0 ^^^ b.l0, a.l0 ^^^ b.l1⟩, pos1)
      | .XOR, _ => (⟨0, 0⟩, pos1)
      | _, _ => makeLabels stream pos1 r
    let w := wp.1
    let pos2 := wp.2
    let m2 : WireMap := m1 ++ [(g.output, w)]
    match g.op, inw with
    | .XOR, _ => (.ok [], m2, pos2)
    | .AND, [a, b] =>
      let table := [entry enc a.l0 (some b.l0) w.l0 g.id,
                    entry enc a.l0 (some b.l1) w.l0 g.id,
                    entry enc a.l1 (some b.l0) w.l0 g.id,
                    entry enc a.l1 (some b.l1) w.l1 g.id]
      (.ok ((sortByIndex table).map TableEntry.data), m2, pos2)
    | .OR, [a, b] =>
      let table := [entry enc a.l0 (some b.l0) w.l0 g.id,
                    entry enc a.l0 (some b.l1) w.l1 g.id,
                    entry enc a.l1 (some b.l0) w.l1 g.id,
                    entry enc a.l1 (some b.l1) w.l1 g.id]
      (.ok ((sortByIndex table).map TableEntry.data), m2, pos2)
    | .INV, [a] =>
      let table := [entry enc a.l0 none w.l1 g.id,
                    entry enc a.l1 none w.l0 g.id]
      (.ok ((sortByIndex table).map TableEntry.data), m2, pos2)
    | _, _ => (.error ("Invalid operand " ++ g.op.str), m2, pos2)

/-- The circuit structure of the `circuit` package (the fields used by the
garbler: gate list and wire count). -/
structure Circuit where
  numWires : Nat
  gates : List Gate
deriving Repr

/-- The per-gate garbling loop of `Circuit.Garble`. -/
def garbleGates (enc : EncFn) (r : Nat) (stream : Nat → Nat) :
    List Gate → WireMap → Nat →
    Except String (List (List Nat) × WireMap × Nat)
  | [], wires, pos => .ok ([], wires, pos)
  | g :: gs, wires, pos =>
    match g.Garble wires enc r stream pos with
    | (.error e, _, _) => .error e
    | (.ok data, wires', pos') =>
      match garbleGates enc r stream gs wires' pos' with
      | .error e => .error e
      | .ok (rest, wires'', pos'') => .ok (data :: rest, wires'', pos'')

/-- The unset-wire loop of `Circuit.Garble`: assign labels to the wires in
`[0, n)` that no gate touched (inputs unused by the computation). -/
def fillWires (r : Nat) (stream : Nat → Nat) :
    Nat → WireMap → Nat → WireMap × Nat
  | 0, wires, pos => (wires, pos)
  | n + 1, wires, pos =>
    -- Go iterates i = 0 .. numWires-1; we peel iterations from the front.
    let i := n
    let (wires1, pos1) := fillWires r stream n wires pos
    match wires1.find i with
    | some _ => (wires1, pos1)
    | none =>
      let (w, pos2) := makeLabels stream pos1 r
      (wires1 ++ [(i, w)], pos2)

/-- The result of `Circuit.Garble` (`Garbled` of `garble.go`). -/
structure Garbled where
  wires : WireMap
  gates : List (List Nat)

/-- `Circuit.Garble` of `garble.go`: draw the global offset `R`, set its
permute bit, garble every gate in order, then label the untouched wires.
The fixed-key AES instance is abstracted as the block function `alg`; the
random labels are read from `stream` (position 0 is `R`). -/
def Circuit.Garble (c : Circuit) (alg : Nat → Nat) (stream : Nat → Nat) :
    Except String Garbled :=
  let r := Label.setS (stream 0) true
  let enc : EncFn := fun a b cc t => encrypt alg a b cc t
  match garbleGates enc r stream c.gates [] 1 with
  | .error e => .error e
  | .ok (garbled, wires, pos) =>
    let (wires', _) := fillWires r stream c.numWires wires pos
    .ok ⟨wires', garbled⟩

/-! ## The evaluator (`eval.go`, package `circuit`) -/

/-- The `Dec` function type of `eval.go`. -/
def DecFn : Type := Nat → Option Nat → Nat → Nat → Except String Nat

/-- `Gate.Eval` of `eval.go`: pick up the held input labels, compute XOR
gates for free, and otherwise decrypt the garbled row selected by the
point-and-permute index of the held labels. -/
def Gate.Eval (g : Gate) (wires : Nat → Option Nat) (dec : DecFn)
    (garbled : List Nat) : Except String Nat :=
  let ab : Except String (Nat × Option Nat) :=
    match g.op with
    | .XOR | .AND | .OR =>
      match wires g.input0, wires g.input1 with
      | some a, some b => .ok (a, some b)
      | none, _ => .error "No input for wire a found"
      | some _, none => .error "No input for wire b found"
    | .INV =>
      match wires g.input0 with
      | some a => .ok (a, none)
      | none => .error "No input for wire a found"
    | _ => .error ("Invalid operation " ++ g.op.str)
  match ab with
  | .error e => .error e
  | .ok (a, b) =>
    if h : g.op = .XOR then
      match b with
      | some bv => .ok (a ^^^ bv)
      | none => .error "No input for wire b found"
    else
      let i := rowIdx (some a) b
      if h2 : i ≥ garbled.length then
        .error "corrupted circuit"
      else
        dec a b g.id (garbled.get ⟨i, by omega⟩)

/-! ## The circuit builder (`compiler/circuits/compiler.go`) -/

/-- A gate of the `circuits` builder (`NewBinary` / `NewINV`): operation,
input wires, output wire.  An `INV` gate reads only `in0`; we store `in0`
in both input slots. -/
structure CGate where
  op : GateOp
  in0 : Nat
  in1 : Nat
  out : Nat
deriving DecidableEq, Repr

/-- `NewBinary` of the `circuits` package. -/
def newBinary (op : GateOp) (a b o : Nat) : CGate := ⟨op, a, b, o⟩

/-- `NewINV` of the `circuits` package: a single-input inverter gate. -/
def newINV (a o : Nat) : CGate := ⟨.INV, a, a, o⟩

/-- Modelled from the spec: the Boolean function a gate computes ("Gate. A
Boolean operator with up to two input wires and one output wire"). -/
def GateOp.evalOp : GateOp → Bool → Bool → Bool
  | .XOR, a, b => xor a b
  | .XNOR, a, b => !(xor a b)
  | .AND, a, b => a && b
  | .OR, a, b => a || b
  | .INV, a, _ => !a

/-- Modelled from the spec: straight-line evaluation of a gate list over an
environment assigning a bit to every wire. -/
def evalGates : List CGate → (Nat → Bool) → Nat → Bool
  | [], env => env
  | g :: gs, env =>
    evalGates gs
      (fun w => if w = g.out then g.op.evalOp (env g.in0) (env g.in1) else env w)

/-- The state of the `circuits.Compiler` that the modelled operations touch:
the fresh-wire counter, the emitted gate list, the memoised zero/one wires,
and the first circuit input wire (`c.Inputs[0]`, used by `ZeroWire` and
`OneWire`; `NewCompiler` guarantees at least one input).  Go allocates wires
as anonymous objects and numbers them at finalisation; we identify a wire
with a number drawn from the counter, which preserves exactly the identity
structure the builder relies on. -/
structure CC where
  nextWire : Nat
  gates : List CGate
  zeroW : Option Nat
  oneW : Option Nat
  input0 : Nat
deriving Repr

/-- `NewWire`: allocate a fresh wire. -/
def CC.newWire (c : CC) : Nat × CC :=
  (c.nextWire, { c with nextWire := c.nextWire + 1 })

/-- `Compiler.AddGate`. -/
def CC.addGate (c : CC) (g : CGate) : CC :=
  { c with gates := c.gates ++ [g] }

/-- `Compiler.ZeroWire`: the memoised `XOR(input0, input0)` singleton. -/
def CC.zeroWire (c : CC) : Nat × CC :=
  match c.zeroW with
  | some w => (w, c)
  | none =>
    let (w, c1) := c.newWire
    let c2 := c1.addGate (newBinary .XOR c.input0 c.input0 w)
    (w, { c2 with zeroW := some w })

/-- `Compiler.OneWire`: the memoised `XNOR(input0, input0)` singleton. -/
def CC.oneWire (c : CC) : Nat × CC :=
  match c.oneW with
  | some w => (w, c)
  | none =>
    let (w, c1) := c.newWire
    let c2 := c1.addGate (newBinary .XNOR c.input0 c.input0 w)
    (w, { c2 with oneW := some w })

/-- The padding loop of `Compiler.ZeroPad`: element `i` of the result is the
input's element for `i < len` and the zero wire beyond. -/
def CC.fillZeros (c : CC) (k : Nat) : List Nat × CC :=
  match k with
  | 0 => ([], c)
  | k + 1 =>
    let (w, c1) := c.zeroWire
    let (ws, c2) := c1.fillZeros k
    (w :: ws, c2)

/-- One vector of `Compiler.ZeroPad`: keep the first `mx` wires and extend
with the zero wire. -/
def CC.padTo (c : CC) (v : List Nat) (mx : Nat) : List Nat × CC :=
  let (zs, c1) := c.fillZeros (mx - v.length)
  (v.take mx ++ zs, c1)

/-- `Compiler.ZeroPad`: extend the shorter of two wire vectors with the zero
wire; equal lengths are returned unchanged. -/
def CC.zeroPad (c : CC) (x y : List Nat) : List Nat × List Nat × CC :=
  if x.length = y.length then (x, y, c)
  else
    let mx := max x.length y.length
    let (rx, c1) := c.padTo x mx
    let (ry, c2) := c1.padTo y mx
    (rx, ry, c2)

/-- A bounds-checked write into a Go slice of wire pointers: writing past the
end is an out-of-range panic, modelled as `none`. -/
def setAt (l : List (Option Nat)) (i : Nat) (v : Nat) :
    Option (List (Option Nat)) :=
  if i < l.length then some (l.set i (some v)) else none

/-- The `copy(result[count:], w)` step of `Compiler.ShiftLeft`, applied to
the all-nil slice of length `size`: positions `count ≤ i < count + |w|`
receive `w[i - count]` (truncated at `size`); the rest stay nil.  The copy
only happens for `count < size`. -/
def shiftCopy (size count : Nat) (w : List Nat) : List (Option Nat) :=
  if count < size then
    List.replicate count none ++ (w.take (size - count)).map some
      ++ List.replicate (size - count - w.length) none
  else
    List.replicate size none

/-- A zero-filling loop of `Compiler.ShiftLeft`: write the zero wire at every
index in the list, panicking (`none`) on an out-of-range index. -/
def fillZeroLoop (c : CC) (res : List (Option Nat)) :
    List Nat → Option (List (Option Nat)) × CC
  | [] => (some res, c)
  | i :: is =>
    let (zw, c1) := c.zeroWire
    match setAt res i zw with
    | none => (none, c1)
    | some res1 => fillZeroLoop c1 res1 is

/-- `Compiler.ShiftLeft` of `compiler.go`: build a `size`-element vector,
copy `w` at offset `count`, and zero-fill below `count` and above
`count + |w|`.  The first zero-fill loop runs over all `i < count` and is
the write that can go out of range. -/
def CC.shiftLeft (c : CC) (w : List Nat) (size count : Nat) :
    Option (List (Option Nat)) × CC :=
  let res0 := shiftCopy size count w
  match fillZeroLoop c res0 (List.range count) with
  | (none, c1) => (none, c1)
  | (some res1, c1) =>
    fillZeroLoop c1 res1 (List.range' (count + w.length)
      (size - (count + w.length)))

/-! ## Comparator circuits (`compiler/circuits/circ_comparators.go`) -/

/-- `NewHalfLtComparator`: `bout = AND(INV(a), b)`. -/
def newHalfLtComparator (c : CC) (a b bout : Nat) : CC :=
  let (w1, c1) := c.newWire
  let c2 := c1.addGate (newINV a w1)
  c2.addGate (newBinary .AND w1 b bout)

/-- `NewFullLtComparator`: the borrow stage
`bout = OR(AND(b, INV(a)), AND(bin, INV(XOR(a, b))))`. -/
def newFullLtComparator (c : CC) (a b bin bout : Nat) : CC :=
  let (w3, c1) := c.newWire
  let (w4, c2) := c1.newWire
  let (w5, c3) := c2.newWire
  let (w6, c4) := c3.newWire
  let (w7, c5) := c4.newWire
  let c6 := c5.addGate (newBinary .XOR a b w3)
  let c7 := c6.addGate (newINV a w4)
  let c8 := c7.addGate (newBinary .AND b w4 w5)
  let c9 := c8.addGate (newINV w3 w6)
  let c10 := c9.addGate (newBinary .AND bin w6 w7)
  c10.addGate (newBinary .OR w5 w7 bout)

/-- The borrow-chain loop of `NewLtComparator` over bit positions
`1 .. n-1`: the last stage writes `r0`, earlier stages write fresh borrow
wires. -/
def ltChainLoop (r0 : Nat) : CC → Nat → List Nat → List Nat → CC
  | c, bin, [xi], [yi] => newFullLtComparator c xi yi bin r0
  | c, bin, xi :: xs, yi :: ys =>
    let (bout, c1) := c.newWire
    ltChainLoop r0 (newFullLtComparator c1 xi yi bin bout) bout xs ys
  | c, _, _, _ => c

/-- `NewLtComparator`: zero-pad the operands, require a single result wire,
then chain a half comparator and full-comparator borrow stages.  The
empty-operand arm is unreachable for the call shapes this file reasons
about. -/
def newLtComparator (c : CC) (x y r : List Nat) : Except String CC :=
  let p := c.zeroPad x y
  let x := p.1
  let y := p.2.1
  let c1 := p.2.2
  match r with
  | [r0] =>
    match x, y with
    | [x0], [y0] => .ok (newHalfLtComparator c1 x0 y0 r0)
    | x0 :: xs, y0 :: ys =>
      let (bin, c2) := c1.newWire
      let c3 := newHalfLtComparator c2 x0 y0 bin
      .ok (ltChainLoop r0 c3 bin xs ys)
    | _, _ => .error "index out of range"
  | _ => .error "invalid lt comparator arguments"

/-- `NewLeComparator`: `r = INV(y < x)` via a fresh wire and
`NewLtComparator` with the operands swapped. -/
def newLeComparator (c : CC) (x y r : List Nat) : Except String CC :=
  let p := c.zeroPad x y
  let x := p.1
  let y := p.2.1
  let c1 := p.2.2
  match r with
  | [r0] =>
    let (w, c2) := c1.newWire
    match newLtComparator c2 y x [w] with
    | .error e => .error e
    | .ok c3 => .ok (c3.addGate (newINV w r0))
  | _ => .error "Invalid le comparator arguments"

/-- The value of a little-endian bit vector. -/
def bitsVal : List Bool → Nat
  | [] => 0
  | b :: bs => (if b then 1 else 0) + 2 * bitsVal bs

/-- The Boolean function of one full-comparator borrow stage. -/
def fullLtSpec (a b bin : Bool) : Bool :=
  (b && !a) || (bin && !(xor a b))

/-- The borrow chain over the remaining (higher) bit pairs. -/
def ltChain : Bool → List Bool → List Bool → Bool
  | bin, [], _ => bin
  | bin, _, [] => bin
  | bin, a :: xs, b :: ys => ltChain (fullLtSpec a b bin) xs ys

/-! ## The SSA generator (`compiler/ast/ssagen.go`) -/

/-- The unroll loop of `For.SSA`.  `cond i` is the constant-folded value of
the loop condition before the `i`-th body expansion (the claim concerns
loops whose init/cond/inc fold; non-constant conditions error out earlier in
the source).  The fuel argument equals `MaxLoopUnroll - i`, so fuel 0 is
exactly the `i >= gen.Params.MaxLoopUnroll` check, which the source tests
BEFORE evaluating the condition.  On success the result is the number of
body expansions. -/
def forUnroll (cond : Nat → Bool) : Nat → Nat → Except String Nat
  | _, 0 => .error "for-loop unroll limit exceeded"
  | i, fuel + 1 => if cond i then forUnroll cond (i + 1) fuel else .ok i

/-- `For.SSA`: expand the body while the folded condition holds, capped by
`MaxLoopUnroll`. -/
def forSSA (maxLoopUnroll : Nat) (cond : Nat → Bool) : Except String Nat :=
  forUnroll cond 0 maxLoopUnroll

/-- An SSA instruction, as far as `If.SSA` is concerned: branch bodies emit
ordinary instructions (represented by `mov`), and control-flow joins emit
`phi(cond, v_true, v_false, join)` merges. -/
inductive SInstr where
  | mov (src dst : Nat)
  | phi (cond tVar fVar dst : Nat)
deriving DecidableEq, Repr

/-- An SSA block as `If.SSA` manipulates it: emitted instructions, the
name-to-variable bindings, the branching condition, and the dead flag set
when a branch terminates in a return. -/
structure Blk where
  instrs : List SInstr
  bindings : List (String × Nat)
  branchCond : Option Nat
  dead : Bool
deriving DecidableEq, Repr

/-- A fresh empty block (`gen.Block()`). -/
def emptyBlk : Blk := ⟨[], [], none, false⟩

/-- `gen.BranchBlock(block)`: a fresh block starting from the parent's
bindings. -/
def branchBlock (b : Blk) : Blk := ⟨[], b.bindings, none, false⟩

/-- `gen.NextBlock(block)`: a fresh fall-through block starting from the
parent's bindings. -/
def nextBlock (b : Blk) : Blk := ⟨[], b.bindings, none, false⟩

/-- Modelled from the spec: `Bindings.Merge(cond, other)` — for each name
bound in both parents, emit `phi(cond, v_true, v_false, joined)` with a
fresh joined variable when the two parents disagree; agreeing names are
kept as they are.  Returns the joined bindings, the emitted phi
instructions, and the advanced fresh-variable counter. -/
def mergeBindings (cond : Nat) :
    List (String × Nat) → List (String × Nat) → Nat →
    List (String × Nat) × List SInstr × Nat
  | [], _, fresh => ([], [], fresh)
  | (n, v1) :: rest, b2, fresh =>
    match List.lookup n b2 with
    | some v2 =>
      if v1 = v2 then
        let (bs, instrs, f) := mergeBindings cond rest b2 fresh
        ((n, v1) :: bs, instrs, f)
      else
        let (bs, instrs, f) := mergeBindings cond rest b2 (fresh + 1)
        ((n, fresh) :: bs, SInstr.phi cond v1 v2 fresh :: instrs, f)
    | none =>
      let (bs, instrs, f) := mergeBindings cond rest b2 fresh
      ((n, v1) :: bs, instrs, f)

/-- A constant value as produced by the AST constant evaluator when folding
an if condition. -/
inductive ConstVal where
  | bool (b : Bool)
  | int (n : Int)
deriving DecidableEq, Repr

/-- `If.SSA` of `ssagen.go`.  The statement's collaborators are passed as
functions, exactly as the source dispatches to them: `evalCond` is the
result of `ast.Expr.Eval` (`none` when the condition is not compile-time
constant), `ssaCond` compiles the condition to SSA values (pairs of a
variable and whether its type is Bool), `tSSA` compiles the true branch and
`fBranch` (when the statement has an else) the false branch; `fresh` is the
generator's fresh-variable counter.  The control flow below mirrors the
source: a constant condition selects a single branch, a non-constant
condition emits both branches and joins them through `mergeBindings`. -/
def ifSSA (evalCond : Option ConstVal)
    (ssaCond : Blk → Nat → Blk × List (Nat × Bool) × Nat)
    (tSSA : Blk → Nat → Blk × Nat)
    (fBranch : Option (Blk → Nat → Blk × Nat))
    (block : Blk) (fresh : Nat) : Except String (Blk × Nat) :=
  match evalCond with
  | some cv =>
    match cv with
    | .bool true => .ok (tSSA block fresh)
    | .bool false =>
      match fBranch with
      | some fS => .ok (fS block fresh)
      | none => .ok (block, fresh)
    | _ => .error "condition is not boolean expression"
  | none =>
    let (block1, e, fresh1) := ssaCond block fresh
    match e with
    | [] => .error "used as value"
    | _ :: _ :: _ => .error "multiple-value used in single-value context"
    | [e0] =>
      if !e0.2 then .error "non-bool used as if condition"
      else
        let block2 := { block1 with branchCond := some e0.1 }
        let tBlock := branchBlock block2
        let (tNext, fresh2) := tSSA tBlock fresh1
        match fBranch with
        | none =>
          if tNext.dead then
            .ok (nextBlock block2, fresh2)
          else
            let (bs, instrs, fresh3) :=
              mergeBindings e0.1 tNext.bindings block2.bindings fresh2
            .ok (⟨tNext.instrs ++ instrs, bs, tNext.branchCond, tNext.dead⟩,
              fresh3)
        | some fS =>
          let fBlock := nextBlock block2
          let (fNext, fresh3) := fS fBlock fresh2
          if fNext.dead && tNext.dead then
            .ok ({ emptyBlk with dead := true }, fresh3)
          else if fNext.dead then
            .ok (tNext, fresh3)
          else if tNext.dead then
            .ok (fNext, fresh3)
          else
            let (bs, instrs, fresh4) :=
              mergeBindings e0.1 tNext.bindings fNext.bindings fresh3
            .ok ({ emptyBlk with bindings := bs, instrs := instrs }, fresh4)

/-! ## The constant evaluator (`compiler/ast/eval.go`, `Binary.Eval`) -/

/-- The binary operators `Binary.Eval` folds. -/
inductive BinOp where
  | mult
  | div
  | mod
  | lshift
  | rshift
  | plus
  | minus
  | eq
  | neq
  | lt
  | le
  | gt
  | ge
deriving DecidableEq, Repr

/-- A folded constant value (`Value.ConstValue`): a Go `int32`, a Go
`uint64`, or a `bool`. -/
inductive EvalVal where
  | i32 (v : Int)
  | u64 (v : Nat)
  | boolean (b : Bool)
deriving DecidableEq, Repr

/-- Go `int32` wrap-around. -/
def wrap32 (n : Int) : Int := (n + 2 ^ 31) % 2 ^ 32 - 2 ^ 31

/-- Go `uint64` wrap-around. -/
def wrap64 (n : Nat) : Nat := n % 2 ^ 64

/-- The `int32` arm of `Binary.Eval`: Go `int32` arithmetic (division and
modulo truncate toward zero and report "integer divide by zero" on a zero
divisor; a negative constant shift count is a Go runtime panic, modelled as
an error). -/
def binaryEvalI32 (op : BinOp) (lval rval : Int) : Except String EvalVal :=
  match op with
  | .mult => .ok (.i32 (wrap32 (lval * rval)))
  | .div =>
    if rval = 0 then .error "integer divide by zero"
    else .ok (.i32 (wrap32 (Int.tdiv lval rval)))
  | .mod =>
    if rval = 0 then .error "integer divide by zero"
    else .ok (.i32 (wrap32 (Int.tmod lval rval)))
  | .lshift =>
    if rval < 0 then .error "negative shift amount"
    else .ok (.i32 (wrap32 (lval * 2 ^ rval.toNat)))
  | .rshift =>
    if rval < 0 then .error "negative shift amount"
    else .ok (.i32 (wrap32 (Int.ediv lval (2 ^ rval.toNat))))
  | .plus => .ok (.i32 (wrap32 (lval + rval)))
  | .minus => .ok (.i32 (wrap32 (lval - rval)))
  | .eq => .ok (.boolean (lval = rval))
  | .neq => .ok (.boolean (lval ≠ rval))
  | .lt => .ok (.boolean (lval < rval))
  | .le => .ok (.boolean (lval ≤ rval))
  | .gt => .ok (.boolean (rval < lval))
  | .ge => .ok (.boolean (rval ≤ lval))

/-- The `uint64` arm of `Binary.Eval`: Go `uint64` arithmetic (values are
maintained below `2 ^ 64`). -/
def binaryEvalU64 (op : BinOp) (lval rval : Nat) : Except String EvalVal :=
  match op with
  | .mult => .ok (.u64 (wrap64 (lval * rval)))
  | .div =>
    if rval = 0 then .error "integer divide by zero"
    else .ok (.u64 (lval / rval))
  | .mod =>
    if rval = 0 then .error "integer divide by zero"
    else .ok (.u64 (lval % rval))
  | .lshift => .ok (.u64 (wrap64 (lval * 2 ^ rval)))
  | .rshift => .ok (.u64 (lval / 2 ^ rval))
  | .plus => .ok (.u64 (wrap64 (lval + rval)))
  | .minus => .ok (.u64 ((lval + 2 ^ 64 - rval) % 2 ^ 64))
  | .eq => .ok (.boolean (lval = rval))
  | .neq => .ok (.boolean (lval ≠ rval))
  | .lt => .ok (.boolean (lval < rval))
  | .le => .ok (.boolean (lval ≤ rval))
  | .gt => .ok (.boolean (rval < lval))
  | .ge => .ok (.boolean (rval ≤ lval))

/-- `Binary.Eval` after both operands folded to constants: dispatch on the
left operand's constant type and require the right operand to match. -/
def binaryEval (op : BinOp) (l r : EvalVal) : Except String EvalVal :=
  match l with
  | .i32 lv =>
    match r with
    | .i32 rv => binaryEvalI32 op lv rv
    | _ => .error "invalid r-value"
  | .u64 lv =>
    match r with
    | .u64 rv => binaryEvalU64 op lv rv
    | _ => .error "invalid r-value"
  | _ => .error "invalid l-value"

/-! ## The type parser (`types/parse.go`) -/

/-- The type kinds of the `types` package used by `Parse`. -/
inductive TKind where
  | TBool
  | TInt
  | TUint
  | TString
  | TArray
deriving DecidableEq, Repr

/-- The type information `Parse` returns: kind, bit-width, minimum
bit-width, array size, and the element type of an array. -/
inductive TInfo where
  | mk (kind : TKind) (bits minBits arraySize : Nat) (elem : Option TInfo)
deriving Repr

/-- The kind field of a `TInfo`. -/
def TInfo.kind : TInfo → TKind
  | .mk k _ _ _ _ => k

/-- The `Bits` field of a `TInfo`. -/
def TInfo.bits : TInfo → Nat
  | .mk _ b _ _ _ => b

/-- The `MinBits` field of a `TInfo`. -/
def TInfo.minBits : TInfo → Nat
  | .mk _ _ m _ _ => m

/-- The `ArraySize` field of a `TInfo`. -/
def TInfo.arraySize : TInfo → Nat
  | .mk _ _ _ s _ => s

/-- The `ElementType` field of a `TInfo`. -/
def TInfo.elem : TInfo → Option TInfo
  | .mk _ _ _ _ e => e

/-- The POSIX regular expression `^([[:^digit:]]+)([[:digit:]]+)$` of
`parse.go` (`reSized`): a non-empty non-digit prefix followed by a
non-empty digit suffix.  Greedy matching splits at the first digit and then
requires the remainder to be all digits. -/
def sizedMatch (s : List Char) : Option (List Char × List Char) :=
  let pre := s.takeWhile (fun c => !c.isDigit)
  let rest := s.dropWhile (fun c => !c.isDigit)
  if pre ≠ [] ∧ rest ≠ [] ∧ rest.all Char.isDigit then some (pre, rest)
  else none

/-- The POSIX regular expression `^\[([[:digit:]]+)\](.+)$` of `parse.go`
(`reArr`): an opening bracket, a non-empty digit run, a closing bracket and
a non-empty remainder. -/
def arrMatch (s : List Char) : Option (List Char × List Char) :=
  match s with
  | c :: t =>
    if c = '[' then
      let ds := t.takeWhile Char.isDigit
      let rest := t.dropWhile Char.isDigit
      if ds = [] then none
      else
        match rest with
        | c2 :: tail =>
          if c2 = ']' then (if tail = [] then none else some (ds, tail))
          else none
        | [] => none
    else none
  | [] => none

/-- `strconv.Atoi` on a digit run. -/
def digitsToNat (ds : List Char) : Nat :=
  ds.foldl (fun acc c => acc * 10 + (c.toNat - '0'.toNat)) 0

/-- `types.Parse`, with a fuel argument making the recursion on the strictly
shorter element-type string structural: the fixed names `b`/`bool`/`byte`,
then sized primitive types via `reSized`, then array types `[N]T` via
`reArr` with a recursive parse of the element type.  The fuel-exhausted arm
is unreachable whenever the fuel exceeds the string length, since each
array nesting strips at least the three characters `[N]`. -/
def parseTypeF : Nat → List Char → Except String TInfo
  | 0, _ => .error "unknown type"
  | fuel + 1, s =>
    if s = "b".data ∨ s = "bool".data then .ok (.mk .TBool 1 1 0 none)
    else if s = "byte".data then .ok (.mk .TUint 8 8 0 none)
    else
      match sizedMatch s with
      | some (pre, ds) =>
        let n := digitsToNat ds
        if pre = "i".data ∨ pre = "int".data then .ok (.mk .TInt n n 0 none)
        else if pre = "u".data ∨ pre = "uint".data then
          .ok (.mk .TUint n n 0 none)
        else if pre = "s".data ∨ pre = "string".data then
          .ok (.mk .TString n n 0 none)
        else .error "unknown type"
      | none =>
        match arrMatch s with
        | none => .error "unknown type"
        | some (ds, tail) =>
          match parseTypeF fuel tail with
          | .error e => .error e
          | .ok el =>
            let n := digitsToNat ds
            .ok (.mk .TArray (n * el.bits) (n * el.bits) n (some el))

/-- `types.Parse` of `parse.go`. -/
def parseType (s : List Char) : Except String TInfo :=
  parseTypeF (s.length + 1) s

/-! ## Helper lemmas -/

/-- XOR on labels is left-commutative. -/
theorem lxor_left_comm (a b c : Nat) : a ^^^ (b ^^^ c) = b ^^^ (a ^^^ c) := by
  rw [← Nat.xor_assoc, Nat.xor_comm a b, Nat.xor_assoc]

/-- XORing twice with the same label is the identity. -/
theorem lxor_cancel_left (a b : Nat) : a ^^^ (a ^^^ b) = b := by
  rw [← Nat.xor_assoc, Nat.xor_self, Nat.zero_xor]

/-! ## C2: dual-key garbled-row cipher -/

/-- C2: for every block-cipher instance `alg`, labels `a`, `b`, `c` and gate
tweak `t`, `encrypt` computes `K = double(a) XOR quad(b) XOR tweak(t)` and
returns `AES_alg(K) XOR K XOR c`, and `decrypt` with the same input labels
and tweak recovers exactly `c`. -/
theorem encrypt_decrypt_roundtrip (alg : Nat → Nat) (a b c t : Nat) :
    makeK a (some b) t = Label.mul2 a ^^^ Label.mul4 b ^^^ Label.tweak t ∧
    encrypt alg a (some b) c t =
      alg (makeK a (some b) t) ^^^ makeK a (some b) t ^^^ c ∧
    decrypt alg a (some b) t (encrypt alg a (some b) c t) = c := by
  refine ⟨rfl, rfl, ?_⟩
  show encrypt alg a (some b) c t ^^^ alg (makeK a (some b) t) ^^^
    makeK a (some b) t = c
  show alg (makeK a (some b) t) ^^^ makeK a (some b) t ^^^ c ^^^
    alg (makeK a (some b) t) ^^^ makeK a (some b) t = c
  generalize alg (makeK a (some b) t) = x
  generalize makeK a (some b) t = k
  rw [Nat.xor_assoc, Nat.xor_assoc, Nat.xor_comm c, lxor_cancel_left]

/-! ## C7: loop-unroll cap -/

/-- The cap check fires whenever the folded condition holds for every index
the loop reaches before the fuel (the remaining unroll budget) runs out. -/
theorem forUnroll_error (cond : Nat → Bool) :
    ∀ fuel i, (∀ j, j < fuel → cond (i + j) = true) →
      forUnroll cond i fuel = .error "for-loop unroll limit exceeded" := by
  intro fuel
  induction fuel with
  | zero => intro i _; rfl
  | succ f ih =>
    intro i h
    have h0 : cond i = true := by
      have := h 0 (Nat.succ_pos f)
      simpa using this
    show forUnroll cond i (f + 1) = .error "for-loop unroll limit exceeded"
    rw [forUnroll, h0]
    simp only [if_true]
    apply ih
    intro j hj
    have := h (j + 1) (by omega)
    simpa [Nat.add_assoc, Nat.add_comm 1 j] using this

/-- If the folded condition fails after `n < fuel` expansions, the loop
stops successfully with `n` body expansions. -/
theorem forUnroll_ok (cond : Nat → Bool) :
    ∀ fuel i n, n < fuel → (∀ j, j < n → cond (i + j) = true) →
      cond (i + n) = false → forUnroll cond i fuel = .ok (i + n) := by
  intro fuel
  induction fuel with
  | zero => intro i n hn; omega
  | succ f ih =>
    intro i n hn hall hstop
    show forUnroll cond i (f + 1) = .ok (i + n)
    rw [forUnroll]
    cases n with
    | zero =>
      simp only [Nat.add_zero] at hstop
      rw [hstop]
      simp
    | succ m =>
      have h0 : cond i = true := by simpa using hall 0 (Nat.succ_pos m)
      rw [h0]
      simp only [if_true]
      have : i + (m + 1) = (i + 1) + m := by omega
      rw [this]
      apply ih (i + 1) m (by omega)
      · intro j hj
        have := hall (j + 1) (by omega)
        have e : i + (j + 1) = i + 1 + j := by omega
        rwa [e] at this
      · have e : i + (m + 1) = i + 1 + m := by omega
        rwa [e] at hstop

/-- C7: a for loop whose constant-folded condition still holds after
`MaxLoopUnroll` expanded iterations is rejected with the documented
"for-loop unroll limit exceeded" error (the cap check runs before the
condition is re-evaluated), and a loop whose condition becomes false after
`n < MaxLoopUnroll` iterations is expanded exactly once per iteration and
generation succeeds. -/
theorem forSSA_unroll_cap (maxLoopUnroll n : Nat) (cond : Nat → Bool) :
    ((∀ i, i < maxLoopUnroll → cond i = true) →
      forSSA maxLoopUnroll cond = .error "for-loop unroll limit exceeded") ∧
    (n < maxLoopUnroll → (∀ j, j < n → cond j = true) → cond n = false →
      forSSA maxLoopUnroll cond = .ok n) := by
  constructor
  · intro h
    apply forUnroll_error
    intro j hj
    simpa using h j hj
  · intro hn hall hstop
    have := forUnroll_ok cond maxLoopUnroll 0 n hn
      (by intro j hj; simpa using hall j hj) (by simpa using hstop)
    simpa [forSSA] using this

/-- Witness for `forSSA_unroll_cap`: with a cap of 2, a loop whose condition
holds everywhere is rejected, and a loop running a single iteration
succeeds with one expansion. -/
theorem forSSA_unroll_cap_witness :
    forSSA 2 (fun _ => true) = .error "for-loop unroll limit exceeded" ∧
    forSSA 2 (fun i => decide (i < 1)) = .ok 1 :=
  ⟨(forSSA_unroll_cap 2 0 (fun _ => true)).1 (fun _ _ => rfl),
   (forSSA_unroll_cap 2 1 (fun i => decide (i < 1))).2 (by decide)
     (by decide) (by decide)⟩

/-! ## C8: constant division by zero -/

/-- C8: when both operands of a division or modulo fold to integer
constants (`int32` or `uint64`), `Binary.Eval` reports "integer divide by
zero" exactly when the divisor constant is zero, and otherwise returns the
constant quotient (resp. remainder) of the two values (with Go `int32`
truncating division and wrap-around). -/
theorem binaryEval_div_mod (l r : Int) (ln rn : Nat) :
    (binaryEval .div (.i32 l) (.i32 r) =
      if r = 0 then .error "integer divide by zero"
      else .ok (.i32 (wrap32 (Int.tdiv l r)))) ∧
    (binaryEval .mod (.i32 l) (.i32 r) =
      if r = 0 then .error "integer divide by zero"
      else .ok (.i32 (wrap32 (Int.tmod l r)))) ∧
    (binaryEval .div (.u64 ln) (.u64 rn) =
      if rn = 0 then .error "integer divide by zero"
      else .ok (.u64 (ln / rn))) ∧
    (binaryEval .mod (.u64 ln) (.u64 rn) =
      if rn = 0 then .error "integer divide by zero"
      else .ok (.u64 (ln % rn))) := by
  refine ⟨?_, ?_, ?_, ?_⟩ <;> simp [binaryEval, binaryEvalI32, binaryEvalU64]

/-! ## C4: XNOR gates are rejected by the garbler and the evaluator -/

/-- C4 (divergence witness): the garbler's `Gate.Garble` falls into the
`default` arm on an XNOR gate and returns the "Invalid operand" error
instead of garbling it for free, the evaluator's `Gate.Eval` likewise
rejects XNOR, and the circuit builder's `OneWire` emits exactly such an
XNOR gate — so circuits using `OneWire` cannot be garbled or evaluated by
this engine, contrary to the documented free XOR/XNOR handling. -/
theorem xnor_rejected_by_garbler_and_evaluator :
    (Gate.Garble ⟨.XNOR, 0, 0, 1, 0⟩ [] (fun a _ _ _ => a) 1
        (fun i => 2 * i) 0).1 = .error "Invalid operand XNOR" ∧
    Gate.Eval ⟨.XNOR, 0, 0, 1, 0⟩ (fun _ => some 0) (fun a _ _ _ => .ok a) []
      = .error "Invalid operation XNOR" ∧
    (CC.oneWire ⟨1, [], none, none, 0⟩).2.gates =
      [⟨GateOp.XNOR, 0, 0, 1⟩] := by
  refine ⟨rfl, rfl, rfl⟩

/-! ## C9: array type parsing -/

/-- A successful `reArr` match decomposes the string as `[` digits `]`
remainder, with a non-empty digit run and a non-empty remainder. -/
theorem arrMatch_sound {s ds tl : List Char}
    (h : arrMatch s = some (ds, tl)) :
    s = '[' :: (ds ++ ']' :: tl) ∧ ds ≠ [] ∧ ds.all Char.isDigit = true ∧
      tl ≠ [] := by
  cases s with
  | nil => simp [arrMatch] at h
  | cons c t =>
    simp only [arrMatch] at h
    split at h
    case isFalse => simp at h
    case isTrue hc =>
      subst hc
      split at h
      case isTrue => simp at h
      case isFalse hds =>
        split at h
        case h_2 => simp at h
        case h_1 c2 tail2 hrest =>
          split at h
          case isFalse => simp at h
          case isTrue hc2 =>
            subst hc2
            split at h
            case isTrue => simp at h
            case isFalse htail =>
              simp only [Option.some.injEq, Prod.mk.injEq] at h
              obtain ⟨h1, h2⟩ := h
              subst h1
              subst h2
              refine ⟨?_, hds, ?_, htail⟩
              · have hsplit := List.takeWhile_append_dropWhile
                  (p := Char.isDigit) (l := t)
                rw [hrest] at hsplit
                rw [hsplit]
              · simp only [List.all_eq_true]
                intro x hx
                exact List.mem_takeWhile_imp hx

/-- The `reSized` pattern never matches an array type string: its greedy
non-digit prefix stops at the first digit of the count, and the remainder
contains the non-digit `]`. -/
theorem sizedMatch_arr {ds tl : List Char} (hds : ds ≠ [])
    (hdig : ds.all Char.isDigit = true) :
    sizedMatch ('[' :: (ds ++ ']' :: tl)) = none := by
  cases ds with
  | nil => exact absurd rfl hds
  | cons d ds' =>
    have hd : d.isDigit = true := by
      simp only [List.all_cons, Bool.and_eq_true] at hdig
      exact hdig.1
    have hbr : ('[' : Char).isDigit = false := by decide
    have hrb : (']' : Char).isDigit = false := by decide
    simp [sizedMatch, List.takeWhile_cons, List.dropWhile_cons, hbr, hd, hrb]

/-- `parseTypeF` does not depend on the fuel once the fuel exceeds the
string length. -/
theorem parseTypeF_fuel (f : Nat) (s : List Char) (hf : s.length < f) :
    parseTypeF f s = parseTypeF (s.length + 1) s := by
  induction f using Nat.strong_induction_on generalizing s with
  | _ f ih =>
    match f, hf with
    | f + 1, hf =>
      by_cases hb : (s = "b".data ∨ s = "bool".data)
      · simp only [parseTypeF, if_pos hb]
      · by_cases hbyte : s = "byte".data
        · simp only [parseTypeF, if_neg hb, if_pos hbyte]
        · cases hsm : sizedMatch s with
          | some pr =>
            simp only [parseTypeF, if_neg hb, if_neg hbyte, hsm]
          | none =>
            cases harr : arrMatch s with
            | none =>
              simp only [parseTypeF, if_neg hb, if_neg hbyte, hsm, harr]
            | some pr =>
              obtain ⟨ds, tl⟩ := pr
              obtain ⟨hshape, hds, hdig, htail⟩ := arrMatch_sound harr
              have hds1 : 1 ≤ ds.length := List.length_pos.mpr hds
              have hlen : s.length = ds.length + tl.length + 2 := by
                rw [hshape]
                simp
                omega
              simp only [parseTypeF, if_neg hb, if_neg hbyte, hsm, harr]
              rw [ih f (by omega) tl (by omega),
                ih s.length (by omega) tl (by omega)]

/-- C9: for every accepted type string of the form `[N]T` (an `reArr`
match with count digits `ds` and element string `T` parsing to `el`),
`types.Parse` returns kind Array with `Bits = N * el.Bits`,
`MinBits = Bits`, `ArraySize = N` and `ElementType = el`. -/
theorem parse_array_type (s ds tl : List Char) (el : TInfo)
    (harr : arrMatch s = some (ds, tl))
    (hel : parseType tl = .ok el) :
    parseType s = .ok (.mk .TArray (digitsToNat ds * el.bits)
      (digitsToNat ds * el.bits) (digitsToNat ds) (some el)) := by
  obtain ⟨hshape, hds, hdig, htail⟩ := arrMatch_sound harr
  have hds1 : 1 ≤ ds.length := List.length_pos.mpr hds
  have hlen : s.length = ds.length + tl.length + 2 := by
    rw [hshape]
    simp
    omega
  have hb : ¬(s = "b".data ∨ s = "bool".data) := by
    rw [hshape]
    rintro (hcon | hcon) <;> simp_all
  have hbyte : ¬(s = "byte".data) := by
    rw [hshape]
    intro hcon
    simp_all
  have hsm : sizedMatch s = none := by
    rw [hshape]
    exact sizedMatch_arr hds hdig
  unfold parseType
  have hsucc : s.length + 1 = s.length + 1 := rfl
  simp only [parseTypeF, if_neg hb, if_neg hbyte, hsm, harr]
  rw [parseTypeF_fuel s.length tl (by omega)]
  unfold parseType at hel
  rw [hel]

/-- Witness for `parse_array_type`: `[3]u8` parses to a 24-bit array of
three 8-bit unsigned integers. -/
theorem parse_array_type_witness :
    parseType "[3]u8".data = .ok (.mk .TArray 24 24 3
      (some (.mk .TUint 8 8 0 none))) :=
  parse_array_type "[3]u8".data "3".data "u8".data
    (.mk .TUint 8 8 0 none) rfl rfl

/-! ## C1: Free-XOR invariant of `Circuit.Garble` -/

/-- The Free-XOR invariant: every wire of the map carries labels with
`L1 = L0 XOR R`. -/
def FreeXorInv (r : Nat) (m : WireMap) : Prop :=
  ∀ p ∈ m, p.2.l1 = p.2.l0 ^^^ r

/-- A successful association-list lookup produces a member. -/
theorem lookup_mem {m : WireMap} {i : Nat} {w : GWire}
    (h : WireMap.find m i = some w) : (i, w) ∈ m := by
  induction m with
  | nil => simp [WireMap.find, List.lookup] at h
  | cons p t ih =>
    obtain ⟨k, v⟩ := p
    simp only [WireMap.find, List.lookup] at h
    by_cases hk : i = k
    · subst hk
      simp at h
      subst h
      exact List.mem_cons_self _ _
    · have hbeq : (i == k) = false := by simp [hk]
      rw [hbeq] at h
      simp only [] at h
      exact List.mem_cons_of_mem _ (ih h)

/-- A list of length two is a two-element list. -/
theorem list_len2 {α : Type} {l : List α} (h : l.length = 2) :
    ∃ a b, l = [a, b] := by
  cases l with
  | nil => simp at h
  | cons a t =>
    cases t with
    | nil => simp at h
    | cons b t2 =>
      cases t2 with
      | nil => exact ⟨a, b, rfl⟩
      | cons c t3 => simp at h

/-- A list of length one is a singleton. -/
theorem list_len1 {α : Type} {l : List α} (h : l.length = 1) :
    ∃ a, l = [a] := by
  cases l with
  | nil => simp at h
  | cons a t =>
    cases t with
    | nil => exact ⟨a, rfl⟩
    | cons b t2 => simp at h

/-- Appending one Free-XOR pair preserves the invariant. -/
theorem freeXorInv_append {r : Nat} {m : WireMap} {i : Nat} {w : GWire}
    (hm : FreeXorInv r m) (hw : w.l1 = w.l0 ^^^ r) :
    FreeXorInv r (m ++ [(i, w)]) := by
  intro p hp
  rcases List.mem_append.mp hp with hpm | hps
  · exact hm _ hpm
  · simp at hps
    subst hps
    exact hw

/-- The input-collection loop preserves the Free-XOR invariant, returns
input wires obeying it, and returns one wire pair per requested input. -/
theorem collectInputs_spec (stream : Nat → Nat) (r : Nat) :
    ∀ (is : List Nat) (m : WireMap) (pos : Nat), FreeXorInv r m →
      FreeXorInv r (collectInputs stream r is m pos).2.1 ∧
      (∀ w ∈ (collectInputs stream r is m pos).1, w.l1 = w.l0 ^^^ r) ∧
      (collectInputs stream r is m pos).1.length = is.length := by
  intro is
  induction is with
  | nil =>
    intro m pos hm
    exact ⟨hm, by simp [collectInputs], rfl⟩
  | cons i it ih =>
    intro m pos hm
    unfold collectInputs
    cases hf : WireMap.find m i with
    | some w =>
      rcases hci : collectInputs stream r it m pos with ⟨ws, m', pos'⟩
      obtain ⟨h1, h2, h3⟩ := ih m pos hm
      rw [hci] at h1 h2 h3
      have hw : w.l1 = w.l0 ^^^ r := hm _ (lookup_mem hf)
      refine ⟨by simpa [hci] using h1, ?_, by simp [hci, h3]⟩
      intro v hv
      simp only [hci] at hv
      rcases List.mem_cons.mp hv with hveq | hvmem
      · subst hveq; exact hw
      · exact h2 _ hvmem
    | none =>
      have hm1 : FreeXorInv r (m ++ [(i, ⟨stream pos, stream pos ^^^ r⟩)]) :=
        freeXorInv_append hm rfl
      rcases hci : collectInputs stream r it
          (m ++ [(i, ⟨stream pos, stream pos ^^^ r⟩)]) (pos + 1)
        with ⟨ws, m', pos'⟩
      obtain ⟨h1, h2, h3⟩ := ih _ (pos + 1) hm1
      rw [hci] at h1 h2 h3
      refine ⟨by simpa [makeLabels, hci] using h1, ?_,
        by simp [makeLabels, hci, h3]⟩
      intro v hv
      simp only [makeLabels, hci] at hv
      rcases List.mem_cons.mp hv with hveq | hvmem
      · subst hveq; rfl
      · exact h2 _ hvmem

/-- `Gate.Garble` preserves the Free-XOR invariant on the wire map in every
arm: non-XOR outputs come from `makeLabels`, and the XOR output pair
satisfies `l1 = (l0a XOR l0b) XOR r` because the second input does. -/
theorem gateGarble_inv (g : Gate) (m : WireMap) (enc : EncFn) (r : Nat)
    (stream : Nat → Nat) (pos : Nat) (hm : FreeXorInv r m) :
    FreeXorInv r (Gate.Garble g m enc r stream pos).2.1 := by
  obtain ⟨op, i0, i1, o, gid⟩ := g
  unfold Gate.Garble
  rcases hci : collectInputs stream r
      (Gate.Inputs ⟨op, i0, i1, o, gid⟩) m pos with ⟨inw, m1, pos1⟩
  obtain ⟨h1, h2, h3⟩ :=
    collectInputs_spec stream r (Gate.Inputs ⟨op, i0, i1, o, gid⟩) m pos hm
  rw [hci] at h1 h2 h3
  simp only [hci]
  cases hfind : WireMap.find m1 o with
  | some w => simpa using h1
  | none =>
    simp only []
    cases op with
    | XOR =>
      have hlen : inw.length = 2 := by rw [h3]; rfl
      obtain ⟨a, b, rfl⟩ := list_len2 hlen
      have hb : b.l1 = b.l0 ^^^ r := h2 b (by simp)
      simp only []
      apply freeXorInv_append h1
      show a.l0 ^^^ b.l1 = a.l0 ^^^ b.l0 ^^^ r
      rw [hb, Nat.xor_assoc]
    | XNOR =>
      have hlen : inw.length = 2 := by rw [h3]; rfl
      obtain ⟨a, b, rfl⟩ := list_len2 hlen
      exact freeXorInv_append h1 rfl
    | AND =>
      have hlen : inw.length = 2 := by rw [h3]; rfl
      obtain ⟨a, b, rfl⟩ := list_len2 hlen
      exact freeXorInv_append h1 rfl
    | OR =>
      have hlen : inw.length = 2 := by rw [h3]; rfl
      obtain ⟨a, b, rfl⟩ := list_len2 hlen
      exact freeXorInv_append h1 rfl
    | INV =>
      have hlen : inw.length = 1 := by rw [h3]; rfl
      obtain ⟨a, rfl⟩ := list_len1 hlen
      exact freeXorInv_append h1 rfl

/-- The per-gate garbling loop preserves the Free-XOR invariant. -/
theorem garbleGates_inv (enc : EncFn) (r : Nat) (stream : Nat → Nat) :
    ∀ (gs : List Gate) (m : WireMap) (pos : Nat) (out : List (List Nat))
      (m' : WireMap) (pos' : Nat), FreeXorInv r m →
      garbleGates enc r stream gs m pos = .ok (out, m', pos') →
      FreeXorInv r m' := by
  intro gs
  induction gs with
  | nil =>
    intro m pos out m' pos' hm h
    simp only [garbleGates, Except.ok.injEq, Prod.mk.injEq] at h
    obtain ⟨_, h2, _⟩ := h
    subst h2
    exact hm
  | cons g gt ih =>
    intro m pos out m' pos' hm h
    unfold garbleGates at h
    rcases hg : Gate.Garble g m enc r stream pos with ⟨res, m1, pos1⟩
    rw [hg] at h
    have hm1 : FreeXorInv r m1 := by
      have := gateGarble_inv g m enc r stream pos hm
      rwa [hg] at this
    cases res with
    | error e => simp at h
    | ok data =>
      simp only [] at h
      cases hrec : garbleGates enc r stream gt m1 pos1 with
      | error e => rw [hrec] at h; simp at h
      | ok trip =>
        obtain ⟨rest, m2, pos2⟩ := trip
        rw [hrec] at h
        simp only [Except.ok.injEq, Prod.mk.injEq] at h
        obtain ⟨_, h2, _⟩ := h
        subst h2
        exact ih m1 pos1 rest m2 pos2 hm1 hrec

/-- The unset-wire loop preserves the Free-XOR invariant. -/
theorem fillWires_inv (r : Nat) (stream : Nat → Nat) :
    ∀ (n : Nat) (m : WireMap) (pos : Nat), FreeXorInv r m →
      FreeXorInv r (fillWires r stream n m pos).1 := by
  intro n
  induction n with
  | zero => intro m pos hm; exact hm
  | succ k ih =>
    intro m pos hm
    unfold fillWires
    rcases hfw : fillWires r stream k m pos with ⟨m1, pos1⟩
    have hm1 : FreeXorInv r m1 := by
      have := ih m pos hm
      rwa [hfw] at this
    simp only [hfw]
    cases hf : WireMap.find m1 k with
    | some w => exact hm1
    | none => exact freeXorInv_append hm1 rfl

/-- The least significant bit of `SetS l true` is set. -/
theorem setS_true_S (l : Nat) : Label.S (Label.setS l true) = true := by
  simp only [Label.S, Label.setS, if_pos, Nat.testBit_zero]
  simp
  omega

/-- C1: after `Circuit.Garble` succeeds, the global offset
`R = SetS(random, 1)` has its permute-and-point bit set, and every wire of
the output assignment satisfies `L1 = L0 XOR R` (non-XOR outputs and unused
wires via `makeLabels`, XOR outputs inductively). -/
theorem garble_free_xor (c : Circuit) (alg stream : Nat → Nat) (g : Garbled)
    (h : c.Garble alg stream = .ok g) :
    Label.S (Label.setS (stream 0) true) = true ∧
    ∀ p ∈ g.wires, p.2.l1 = p.2.l0 ^^^ Label.setS (stream 0) true := by
  refine ⟨setS_true_S _, ?_⟩
  simp only [Circuit.Garble] at h
  cases hgg : garbleGates (fun a b cc t => encrypt alg a b cc t)
      (Label.setS (stream 0) true) stream c.gates [] 1 with
  | error e => rw [hgg] at h; simp at h
  | ok trip =>
    obtain ⟨garbled, wires, pos⟩ := trip
    rw [hgg] at h
    simp only [] at h
    rcases hfw : fillWires (Label.setS (stream 0) true) stream
        c.numWires wires pos with ⟨wires2, pos2⟩
    rw [hfw] at h
    simp only [Except.ok.injEq] at h
    subst h
    have hw : FreeXorInv (Label.setS (stream 0) true) wires :=
      garbleGates_inv _ _ _ _ _ _ _ _ _ (by intro p hp; simp at hp) hgg
    have hw2 := fillWires_inv (Label.setS (stream 0) true) stream
      c.numWires wires pos hw
    rw [hfw] at hw2
    exact hw2

/-- Witness for `garble_free_xor`: a one-XOR-gate circuit garbled with the
stream `i + 2` yields `R = 3` and the concrete Free-XOR wire assignment. -/
theorem garble_free_xor_witness :
    Label.S (Label.setS 2 true) = true ∧
    ∀ p ∈ (Garbled.mk [(0, ⟨3, 0⟩), (1, ⟨4, 7⟩), (2, ⟨7, 4⟩)] [[]]).wires,
      p.2.l1 = p.2.l0 ^^^ Label.setS 2 true :=
  garble_free_xor ⟨3, [⟨.XOR, 0, 1, 2, 0⟩]⟩ (fun k => k) (fun i => i + 2)
    (Garbled.mk [(0, ⟨3, 0⟩), (1, ⟨4, 7⟩), (2, ⟨7, 4⟩)] [[]]) rfl

/-! ## C3: point-and-permute row order -/

/-- Flipping by an offset with set permute bit flips the permute bit. -/
theorem S_xor_of_S {l r : Nat} (h : Label.S r = true) :
    Label.S (l ^^^ r) = !(Label.S l) := by
  simp only [Label.S, Nat.testBit_xor]
  rw [Label.S] at h
  rw [h]
  simp

/-- The label of a wire whose permute bit is `s` (under Free-XOR with
`S(R) = 1`, exactly one of the two labels qualifies). -/
def selByS (w : GWire) (s : Bool) : Nat :=
  if Label.S w.l0 = s then w.l0 else w.l1

/-- The truth value carried by the label of `w` whose permute bit is `s`. -/
def valByS (w : GWire) (s : Bool) : Bool :=
  s != Label.S w.l0

/-- Row `j` of a sorted binary-gate table: the encryption, under the two
input labels whose permute bits encode `j = (S(a) << 1) | S(b)`, of the
output label selected by the gate's truth table. -/
def rowFor (enc : EncFn) (aw bw cw : GWire) (op : GateOp) (gid : Nat)
    (j : Nat) : Nat :=
  enc (selByS aw (j.testBit 1)) (some (selByS bw (j.testBit 0)))
    (if op.evalOp (valByS aw (j.testBit 1)) (valByS bw (j.testBit 0))
     then cw.l1 else cw.l0) gid

/-- Row `j` of a sorted INV-gate table: the encryption, under the single
input label whose permute bit is `j`, of the inverted output label. -/
def invRowFor (enc : EncFn) (aw cw : GWire) (gid : Nat) (j : Nat) : Nat :=
  enc (selByS aw (j.testBit 0)) none
    (if valByS aw (j.testBit 0) then cw.l0 else cw.l1) gid

/-- C3: for AND, OR and INV gates with Free-XOR input labels, `Gate.Garble`
returns the ciphertext rows sorted in ascending order of the
point-and-permute index `(S(L_a) << 1) | S(L_b)` of the encrypting labels
(for INV the single input's S bit): row `j` is encrypted exactly under the
labels whose permute bits encode `j`; and the evaluator `Gate.Eval`
decrypts exactly the ciphertext at the index computed from its held
labels. -/
theorem gate_garble_row_order (i0 i1 o gid : Nat) (m : WireMap)
    (enc : EncFn) (r : Nat) (stream : Nat → Nat) (pos : Nat)
    (aw bw : GWire)
    (hin0 : m.find i0 = some aw) (hin1 : m.find i1 = some bw)
    (hout : m.find o = none)
    (ha : aw.l1 = aw.l0 ^^^ r) (hb : bw.l1 = bw.l0 ^^^ r)
    (hS : Label.S r = true) :
    (Gate.Garble ⟨.AND, i0, i1, o, gid⟩ m enc r stream pos =
      (.ok [rowFor enc aw bw ⟨stream pos, stream pos ^^^ r⟩ .AND gid 0,
            rowFor enc aw bw ⟨stream pos, stream pos ^^^ r⟩ .AND gid 1,
            rowFor enc aw bw ⟨stream pos, stream pos ^^^ r⟩ .AND gid 2,
            rowFor enc aw bw ⟨stream pos, stream pos ^^^ r⟩ .AND gid 3],
       m ++ [(o, ⟨stream pos, stream pos ^^^ r⟩)], pos + 1)) ∧
    (Gate.Garble ⟨.OR, i0, i1, o, gid⟩ m enc r stream pos =
      (.ok [rowFor enc aw bw ⟨stream pos, stream pos ^^^ r⟩ .OR gid 0,
            rowFor enc aw bw ⟨stream pos, stream pos ^^^ r⟩ .OR gid 1,
            rowFor enc aw bw ⟨stream pos, stream pos ^^^ r⟩ .OR gid 2,
            rowFor enc aw bw ⟨stream pos, stream pos ^^^ r⟩ .OR gid 3],
       m ++ [(o, ⟨stream pos, stream pos ^^^ r⟩)], pos + 1)) ∧
    (Gate.Garble ⟨.INV, i0, i1, o, gid⟩ m enc r stream pos =
      (.ok [invRowFor enc aw ⟨stream pos, stream pos ^^^ r⟩ gid 0,
            invRowFor enc aw ⟨stream pos, stream pos ^^^ r⟩ gid 1],
       m ++ [(o, ⟨stream pos, stream pos ^^^ r⟩)], pos + 1)) ∧
    (∀ j, j < 4 → rowIdx (some (selByS aw (j.testBit 1)))
      (some (selByS bw (j.testBit 0))) = j) ∧
    (∀ j, j < 2 → rowIdx (some (selByS aw (j.testBit 0))) none = j) ∧
    (∀ (op : GateOp), op = .AND ∨ op = .OR →
      ∀ (wires : Nat → Option Nat) (dec : DecFn) (garbled : List Nat)
        (la lb : Nat), wires i0 = some la → wires i1 = some lb →
        ∀ hlen : rowIdx (some la) (some lb) < garbled.length,
        Gate.Eval ⟨op, i0, i1, o, gid⟩ wires dec garbled =
          dec la (some lb) gid
            (garbled.get ⟨rowIdx (some la) (some lb), hlen⟩)) ∧
    (∀ (wires : Nat → Option Nat) (dec : DecFn) (garbled : List Nat)
      (la : Nat), wires i0 = some la →
      ∀ hlen : rowIdx (some la) none < garbled.length,
      Gate.Eval ⟨.INV, i0, i1, o, gid⟩ wires dec garbled =
        dec la none gid (garbled.get ⟨rowIdx (some la) none, hlen⟩)) := by
  have hsa1 : Label.S aw.l1 = !Label.S aw.l0 := by rw [ha]; exact S_xor_of_S hS
  have hsb1 : Label.S bw.l1 = !Label.S bw.l0 := by rw [hb]; exact S_xor_of_S hS
  refine ⟨?_, ?_, ?_, ?_, ?_, ?_, ?_⟩
  · show Gate.Garble ⟨.AND, i0, i1, o, gid⟩ m enc r stream pos = _
    unfold Gate.Garble
    simp only [Gate.Inputs, collectInputs, hin0, hin1, hout, makeLabels]
    cases hsa : Label.S aw.l0 <;> cases hsb : Label.S bw.l0 <;>
      simp +decide [entry, rowIdx, hsa, hsb, hsa1, hsb1, sortByIndex,
        insertEntry, rowFor, selByS, valByS, GateOp.evalOp, makeLabels]
  · show Gate.Garble ⟨.OR, i0, i1, o, gid⟩ m enc r stream pos = _
    unfold Gate.Garble
    simp only [Gate.Inputs, collectInputs, hin0, hin1, hout, makeLabels]
    cases hsa : Label.S aw.l0 <;> cases hsb : Label.S bw.l0 <;>
      simp +decide [entry, rowIdx, hsa, hsb, hsa1, hsb1, sortByIndex,
        insertEntry, rowFor, selByS, valByS, GateOp.evalOp, makeLabels]
  · show Gate.Garble ⟨.INV, i0, i1, o, gid⟩ m enc r stream pos = _
    unfold Gate.Garble
    simp only [Gate.Inputs, collectInputs, hin0, hout, makeLabels]
    cases hsa : Label.S aw.l0 <;>
      simp +decide [entry, rowIdx, hsa, hsa1, sortByIndex, insertEntry,
        invRowFor, selByS, valByS, GateOp.evalOp, makeLabels]
  · intro j hj
    interval_cases j <;>
      cases hsa : Label.S aw.l0 <;> cases hsb : Label.S bw.l0 <;>
        simp +decide [rowIdx, selByS, hsa, hsb, hsa1, hsb1]
  · intro j hj
    interval_cases j <;>
      cases hsa : Label.S aw.l0 <;>
        simp +decide [rowIdx, selByS, hsa, hsa1]
  · rintro op (rfl | rfl) wires dec garbled la lb hla hlb hlen <;>
      (simp [Gate.Eval, hla, hlb]; rw [dif_neg (by omega)])
  · intro wires dec garbled la hla hlen
    simp [Gate.Eval, hla]
    rw [dif_neg (by omega)]

/-- Witness for `gate_garble_row_order`: a concrete AND gate over wires
`0, 1` with `R = 1` garbles to the four rows in point-and-permute order. -/
theorem gate_garble_row_order_witness :
    Gate.Garble ⟨.AND, 0, 1, 2, 9⟩ [(0, ⟨0, 1⟩), (1, ⟨2, 3⟩)]
        (fun a b c t => a ^^^ (b.getD 5) ^^^ c ^^^ t) 1 (fun i => 6 + i) 0 =
      (.ok [rowFor (fun a b c t => a ^^^ (b.getD 5) ^^^ c ^^^ t)
              ⟨0, 1⟩ ⟨2, 3⟩ ⟨6, 7⟩ .AND 9 0,
            rowFor (fun a b c t => a ^^^ (b.getD 5) ^^^ c ^^^ t)
              ⟨0, 1⟩ ⟨2, 3⟩ ⟨6, 7⟩ .AND 9 1,
            rowFor (fun a b c t => a ^^^ (b.getD 5) ^^^ c ^^^ t)
              ⟨0, 1⟩ ⟨2, 3⟩ ⟨6, 7⟩ .AND 9 2,
            rowFor (fun a b c t => a ^^^ (b.getD 5) ^^^ c ^^^ t)
              ⟨0, 1⟩ ⟨2, 3⟩ ⟨6, 7⟩ .AND 9 3],
       [(0, ⟨0, 1⟩), (1, ⟨2, 3⟩), (2, ⟨6, 7⟩)], 1) :=
  (gate_garble_row_order 0 1 2 9 [(0, ⟨0, 1⟩), (1, ⟨2, 3⟩)]
    (fun a b c t => a ^^^ (b.getD 5) ^^^ c ^^^ t) 1 (fun i => 6 + i) 0
    ⟨0, 1⟩ ⟨2, 3⟩ rfl rfl rfl rfl rfl (by decide)).1

/-! ## C6: if-statement SSA generation -/

/-- Counterexample to C6 as stated: an if statement whose condition
constant-folds to `true` is reduced to its true branch alone — the result
block contains only the true branch's instruction, no instruction of the
false branch and no phi merge, contradicting "both branches are always
emitted" and "no if statement is ever reduced to a single branch". -/
theorem if_const_cond_single_branch :
    ifSSA (some (.bool true)) (fun b f => (b, [(0, true)], f))
      (fun b f =>
        (⟨b.instrs ++ [.mov 1 101], b.bindings, b.branchCond, b.dead⟩, f))
      (some (fun b f =>
        (⟨b.instrs ++ [.mov 2 102], b.bindings, b.branchCond, b.dead⟩, f)))
      ⟨[], [("x", 7)], none, false⟩ 5
      = .ok (⟨[.mov 1 101], [("x", 7)], none, false⟩, 5) ∧
    SInstr.mov 2 102 ∉ [SInstr.mov 1 101] ∧
    SInstr.phi 0 1 2 3 ∉ [SInstr.mov 1 101] :=
  ⟨rfl, by decide, by decide⟩

/-- Phi emission of the modelled merge: every name bound to different
variables in the two parents yields a `phi` instruction. -/
theorem mergeBindings_phi (cond : Nat) :
    ∀ (b1 b2 : List (String × Nat)) (fresh : Nat) (n : String) (v1 v2 : Nat),
      (n, v1) ∈ b1 → List.lookup n b2 = some v2 → v1 ≠ v2 →
      ∃ dst, SInstr.phi cond v1 v2 dst ∈
        (mergeBindings cond b1 b2 fresh).2.1 := by
  intro b1
  induction b1 with
  | nil => intro b2 fresh n v1 v2 hmem; simp at hmem
  | cons p rest ih =>
    intro b2 fresh n v1 v2 hmem hlook hne
    obtain ⟨m, w⟩ := p
    rcases List.mem_cons.mp hmem with hd | htl
    · rw [Prod.ext_iff] at hd
      obtain ⟨hn, hv⟩ := hd
      simp only at hn hv
      subst hn
      subst hv
      unfold mergeBindings
      rw [hlook]
      simp only [if_neg hne]
      rcases hmr : mergeBindings cond rest b2 (fresh + 1) with ⟨bs, instrs, f⟩
      exact ⟨fresh, by simp⟩
    · unfold mergeBindings
      cases hl2 : List.lookup m b2 with
      | some w2 =>
        by_cases hw : w = w2
        · subst hw
          simp only [if_pos rfl]
          rcases hmr : mergeBindings cond rest b2 fresh with ⟨bs, instrs, f⟩
          obtain ⟨dst, hdst⟩ := ih b2 fresh n v1 v2 htl hlook hne
          rw [hmr] at hdst
          exact ⟨dst, by simpa [hmr] using hdst⟩
        · simp only [if_neg hw]
          rcases hmr : mergeBindings cond rest b2 (fresh + 1) with ⟨bs, instrs, f⟩
          obtain ⟨dst, hdst⟩ := ih b2 (fresh + 1) n v1 v2 htl hlook hne
          rw [hmr] at hdst
          refine ⟨dst, ?_⟩
          simp only [hmr]
          exact List.mem_cons_of_mem _ hdst
      | none =>
        rcases hmr : mergeBindings cond rest b2 fresh with ⟨bs, instrs, f⟩
        obtain ⟨dst, hdst⟩ := ih b2 fresh n v1 v2 htl hlook hne
        rw [hmr] at hdst
        exact ⟨dst, by simpa [hmr] using hdst⟩

/-- C6 (amended): when the if condition does not constant-fold, `If.SSA`
compiles both branches (the true branch from `BranchBlock`, the false
branch from `NextBlock`) and, when both fall through, the join block's
bindings and phi instructions come from merging the two branch bindings
with the condition as selector — every name the branches bind differently
gets a phi.  When the condition constant-folds, only the selected branch is
compiled (true branch, else branch, or neither when there is no else). -/
theorem ifSSA_branch_compilation
    (ssaCond : Blk → Nat → Blk × List (Nat × Bool) × Nat)
    (tS fS : Blk → Nat → Blk × Nat) (block b1 : Blk) (v : Nat)
    (fresh f1 : Nat) (tN fN : Blk) (f2 f3 : Nat)
    (hssa : ssaCond block fresh = (b1, [(v, true)], f1))
    (ht : tS (branchBlock ⟨b1.instrs, b1.bindings, some v, b1.dead⟩) f1
      = (tN, f2))
    (hf : fS (nextBlock ⟨b1.instrs, b1.bindings, some v, b1.dead⟩) f2
      = (fN, f3))
    (htd : tN.dead = false) (hfd : fN.dead = false) :
    (ifSSA none ssaCond tS (some fS) block fresh =
      .ok (⟨(mergeBindings v tN.bindings fN.bindings f3).2.1,
            (mergeBindings v tN.bindings fN.bindings f3).1, none, false⟩,
        (mergeBindings v tN.bindings fN.bindings f3).2.2)) ∧
    (∀ (n : String) (v1 v2 : Nat), (n, v1) ∈ tN.bindings →
      List.lookup n fN.bindings = some v2 → v1 ≠ v2 →
      ∃ dst, SInstr.phi v v1 v2 dst ∈
        (mergeBindings v tN.bindings fN.bindings f3).2.1) ∧
    (ifSSA (some (.bool true)) ssaCond tS (some fS) block fresh =
      .ok (tS block fresh)) ∧
    (ifSSA (some (.bool false)) ssaCond tS (some fS) block fresh =
      .ok (fS block fresh)) ∧
    (ifSSA (some (.bool false)) ssaCond tS none block fresh =
      .ok (block, fresh)) := by
  refine ⟨?_, mergeBindings_phi v tN.bindings fN.bindings f3, rfl, rfl, rfl⟩
  unfold ifSSA
  rw [hssa]
  simp only []
  have hb2 : { b1 with branchCond := some v } =
      (⟨b1.instrs, b1.bindings, some v, b1.dead⟩ : Blk) := rfl
  rw [hb2, ht]
  simp only []
  rw [hf]
  simp only [htd, hfd]
  rcases hmr : mergeBindings v tN.bindings fN.bindings f3 with ⟨bs, instrs, f4⟩
  simp [emptyBlk, hmr]

/-- Witness for `ifSSA_branch_compilation`: branches that bind `x` to the
variables 2 and 3 produce a join block holding exactly the phi merge
`phi(cond=10, 2, 3, 5)`. -/
theorem ifSSA_branch_compilation_witness :
    ifSSA none (fun b f => (b, [(10, true)], f))
      (fun b f => (⟨b.instrs, [("x", 2)], b.branchCond, false⟩, f))
      (some (fun b f => (⟨b.instrs, [("x", 3)], b.branchCond, false⟩, f)))
      ⟨[], [("x", 1)], none, false⟩ 5
      = .ok (⟨[.phi 10 2 3 5], [("x", 5)], none, false⟩, 6) :=
  (ifSSA_branch_compilation (fun b f => (b, [(10, true)], f))
    (fun b f => (⟨b.instrs, [("x", 2)], b.branchCond, false⟩, f))
    (fun b f => (⟨b.instrs, [("x", 3)], b.branchCond, false⟩, f))
    ⟨[], [("x", 1)], none, false⟩ ⟨[], [("x", 1)], none, false⟩ 10 5 5
    ⟨[], [("x", 2)], none, false⟩ ⟨[], [("x", 3)], none, false⟩ 5 5
    rfl rfl rfl rfl rfl).1

/-! ## C10: `Compiler.ShiftLeft` -/

/-- The wire the next `ZeroWire()` call returns: the memoised wire, or the
freshly allocated one. -/
def zwOf (c : CC) : Nat :=
  match c.zeroW with
  | some w => w
  | none => c.nextWire

/-- `ZeroWire` returns `zwOf`, memoises it, and preserves it. -/
theorem zeroWire_eq (c : CC) :
    (c.zeroWire).1 = zwOf c ∧ (c.zeroWire).2.zeroW = some (zwOf c) := by
  obtain ⟨nw, gs, z, o, i⟩ := c
  cases z <;> simp [CC.zeroWire, CC.newWire, CC.addGate, zwOf]

/-- The zero-filling loop, on in-range indices: it writes the zero wire at
every listed index, leaves every other position unchanged, and (when the
index list is non-empty) memoises the zero wire. -/
theorem fillZeroLoop_spec :
    ∀ (is : List Nat) (c : CC) (res : List (Option Nat)),
      (∀ i ∈ is, i < res.length) →
      ∃ res' c', fillZeroLoop c res is = (some res', c') ∧
        res'.length = res.length ∧
        (∀ j, j ∉ is → res'[j]? = res[j]?) ∧
        (∀ j ∈ is, res'[j]? = some (some (zwOf c))) ∧
        zwOf c' = zwOf c ∧
        (c'.zeroW = if is.isEmpty then c.zeroW else some (zwOf c)) := by
  intro is
  induction is with
  | nil =>
    intro c res _
    exact ⟨res, c, rfl, rfl, fun _ _ => rfl, by simp, rfl, by simp⟩
  | cons i it ih =>
    intro c res hin
    have hi : i < res.length := hin i (by simp)
    obtain ⟨hz1, hz2⟩ := zeroWire_eq c
    rcases hzw : c.zeroWire with ⟨zv, c1⟩
    rw [hzw] at hz1 hz2
    simp only at hz1 hz2
    subst hz1
    have hz3 : zwOf c1 = zwOf c := by
      show (match c1.zeroW with | some w => w | none => c1.nextWire) = zwOf c
      rw [hz2]
    have hset : setAt res i (zwOf c) = some (res.set i (some (zwOf c))) := by
      simp [setAt, hi]
    obtain ⟨res', c', h1, h2, h3, h4, h5, h6⟩ :=
      ih c1 (res.set i (some (zwOf c)))
        (by intro j hj; rw [List.length_set]; exact hin j (by simp [hj]))
    refine ⟨res', c', ?_, ?_, ?_, ?_, ?_, ?_⟩
    · unfold fillZeroLoop
      rw [hzw]
      simp only [hset]
      exact h1
    · rw [h2, List.length_set]
    · intro j hj
      have hji : j ≠ i := by intro hcon; subst hcon; simp at hj
      have hjt : j ∉ it := by intro hcon; simp [hcon] at hj
      rw [h3 j hjt, List.getElem?_set]
      simp [Ne.symm hji]
    · intro j hj
      rcases List.mem_cons.mp hj with hd | htl
      · subst hd
        by_cases hjt : j ∈ it
        · rw [h4 j hjt, hz3]
        · rw [h3 j hjt, List.getElem?_set]
          simp [hi]
      · rw [h4 j htl, hz3]
    · rw [h5, hz3]
    · rw [h6]
      simp [hz2, hz3]
  
/-- The zero-filling loop panics (returns `none`) as soon as it reaches an
out-of-range index. -/
theorem fillZeroLoop_halt :
    ∀ (is1 : List Nat) (j : Nat) (is2 : List Nat) (c : CC)
      (res : List (Option Nat)),
      (∀ i ∈ is1, i < res.length) → res.length ≤ j →
      (fillZeroLoop c res (is1 ++ j :: is2)).1 = none := by
  intro is1
  induction is1 with
  | nil =>
    intro j is2 c res _ hj
    unfold fillZeroLoop
    rcases hzw : c.zeroWire with ⟨zv, c1⟩
    have hset : setAt res j zv = none := by
      simp [setAt]
      omega
    simp [hset]
  | cons i it ih =>
    intro j is2 c res hin hj
    have hi : i < res.length := hin i (by simp)
    unfold fillZeroLoop
    rcases hzw : c.zeroWire with ⟨zv, c1⟩
    have hset : setAt res i zv = some (res.set i (some zv)) := by
      simp [setAt, hi]
    simp only [List.cons_append, hset]
    have := ih j is2 c1 (res.set i (some zv))
      (by intro x hx; rw [List.length_set]; exact hin x (by simp [hx]))
      (by rw [List.length_set]; exact hj)
    exact this

/-- The copy step produces a `size`-length slice. -/
theorem shiftCopy_length (size count : Nat) (w : List Nat) :
    (shiftCopy size count w).length = size := by
  unfold shiftCopy
  split
  · simp only [List.length_append, List.length_replicate, List.length_map,
      List.length_take]
    omega
  · simp

/-- The copy step places `w[i - count]` at the in-range positions
`count ≤ i < count + |w|`. -/
theorem shiftCopy_get_mid (size count i : Nat) (w : List Nat)
    (h1 : count ≤ i) (h2 : i < count + w.length) (h3 : i < size) :
    (shiftCopy size count w)[i]? = (w[i - count]?).map some := by
  have hcs : count < size := by omega
  unfold shiftCopy
  rw [if_pos hcs]
  rw [List.getElem?_append]
  rw [if_pos (by simp; omega)]
  rw [List.getElem?_append]
  rw [if_neg (by simp; omega)]
  rw [List.length_replicate, List.getElem?_map, List.getElem?_take,
    if_pos (by omega)]

/-- C10: `Compiler.ShiftLeft` is index-safe exactly under `count ≤ size`:
then it returns a `size`-wire vector holding the zero wire below `count`
and above `count + |w|` and `w[i - count]` in between (and the zero wire is
memoised whenever one was emitted); for `count > size` the zero-fill loop's
write at index `size` is out of range (a Go panic, modelled as `none`). -/
theorem shiftLeft_spec (c : CC) (w : List Nat) (size count : Nat) :
    (count ≤ size →
      ∃ res c', c.shiftLeft w size count = (some res, c') ∧
        res.length = size ∧
        (∀ i, i < count → res[i]? = some (some (zwOf c))) ∧
        (∀ i, count + w.length ≤ i → i < size →
          res[i]? = some (some (zwOf c))) ∧
        (∀ i, count ≤ i → i < count + w.length → i < size →
          res[i]? = (w[i - count]?).map some) ∧
        ((0 < count ∨ count + w.length < size) →
          c'.zeroW = some (zwOf c))) ∧
    (size < count → (c.shiftLeft w size count).1 = none) := by
  constructor
  · intro hcs
    have hlen0 : (shiftCopy size count w).length = size :=
      shiftCopy_length size count w
    obtain ⟨res1, c1, h1, h2, h3, h4, h5, h6⟩ :=
      fillZeroLoop_spec (List.range count) c (shiftCopy size count w)
        (by intro i hi; rw [hlen0]; exact lt_of_lt_of_le (List.mem_range.mp hi) hcs)
    obtain ⟨res2, c2, g1, g2, g3, g4, g5, g6⟩ :=
      fillZeroLoop_spec (List.range' (count + w.length)
        (size - (count + w.length))) c1 res1
        (by
          intro i hi
          rw [h2, hlen0]
          obtain ⟨k, hk, hik⟩ := List.mem_range'.mp hi
          omega)
    have hmem2 : ∀ i, i ∈ List.range' (count + w.length)
        (size - (count + w.length)) ↔ count + w.length ≤ i ∧ i < size := by
      intro i
      rw [List.mem_range']
      constructor
      · rintro ⟨k, hk, rfl⟩; omega
      · intro ⟨ha, hb⟩; exact ⟨i - (count + w.length), by omega, by omega⟩
    refine ⟨res2, c2, ?_, ?_, ?_, ?_, ?_, ?_⟩
    · simp only [CC.shiftLeft]
      rw [h1]
      simp only []
      exact g1
    · rw [g2, h2, hlen0]
    · intro i hi
      have hnotin2 : i ∉ List.range' (count + w.length)
          (size - (count + w.length)) := by
        rw [hmem2]; omega
      rw [g3 i hnotin2, h4 i (List.mem_range.mpr hi)]
    · intro i hi1 hi2
      rw [g4 i ((hmem2 i).mpr ⟨hi1, hi2⟩), h5]
    · intro i hi1 hi2 hi3
      have hnotin2 : i ∉ List.range' (count + w.length)
          (size - (count + w.length)) := by
        rw [hmem2]; omega
      have hnotin1 : i ∉ List.range count := by
        rw [List.mem_range]; omega
      rw [g3 i hnotin2, h3 i hnotin1]
      exact shiftCopy_get_mid size count i w hi1 hi2 hi3
    · rintro (hpos | hmid)
      · have hne1 : (List.range count).isEmpty = false := by
          cases count with
          | zero => omega
          | succ k => simp [List.range_succ]
        rw [hne1] at h6
        simp only [Bool.false_eq_true, if_false] at h6
        by_cases hne2 : (List.range' (count + w.length)
            (size - (count + w.length))).isEmpty = true
        · rw [hne2] at g6
          simp only [if_true] at g6
          rw [g6, h6]
        · simp only [hne2] at g6
          rw [g6, h5]
          simp
      · have hne2 : (List.range' (count + w.length)
            (size - (count + w.length))).isEmpty = false := by
          have : size - (count + w.length) ≠ 0 := by omega
          cases hk : size - (count + w.length) with
          | zero => omega
          | succ k => simp [List.range']
        rw [hne2] at g6
        simp only [Bool.false_eq_true, if_false] at g6
        rw [g6, h5]
  · intro hsc
    simp only [CC.shiftLeft]
    have hdecomp : List.range count =
        List.range size ++ size :: List.map (fun x => size + x)
          (List.map Nat.succ (List.range (count - size - 1))) := by
      have h1 : count = size + (count - size) := by omega
      rw [h1, List.range_add]
      congr 1
      have h2 : count - size = (count - size - 1) + 1 := by omega
      rw [h2, List.range_succ_eq_map]
      simp
    rw [hdecomp]
    have hhalt := fillZeroLoop_halt (List.range size) size
      (List.map (fun x => size + x) (List.map Nat.succ
        (List.range (count - size - 1)))) c (shiftCopy size count w)
      (by
        intro i hi
        rw [shiftCopy_length]
        exact List.mem_range.mp hi)
      (by rw [shiftCopy_length])
    rcases hfz : fillZeroLoop c (shiftCopy size count w)
        (List.range size ++ size :: List.map (fun x => size + x)
          (List.map Nat.succ (List.range (count - size - 1))))
      with ⟨ores, c1⟩
    rw [hfz] at hhalt
    simp only at hhalt
    subst hhalt
    simp

/-- Witness for `shiftLeft_spec`: shifting `[10, 11]` into a 4-wire vector
by one position succeeds, while `count = 3 > size = 2` hits the
out-of-range write. -/
theorem shiftLeft_spec_witness :
    (∃ res c', CC.shiftLeft ⟨5, [], none, none, 0⟩ [10, 11] 4 1 =
      (some res, c') ∧ res.length = 4 ∧
      (∀ i, i < 1 → res[i]? = some (some (zwOf ⟨5, [], none, none, 0⟩))) ∧
      (∀ i, 3 ≤ i → i < 4 →
        res[i]? = some (some (zwOf ⟨5, [], none, none, 0⟩))) ∧
      (∀ i, 1 ≤ i → i < 3 → i < 4 →
        res[i]? = (([10, 11] : List Nat)[i - 1]?).map some) ∧
      ((0 < 1 ∨ 3 < 4) → c'.zeroW = some (zwOf ⟨5, [], none, none, 0⟩))) ∧
    (CC.shiftLeft ⟨5, [], none, none, 0⟩ [10, 11] 2 3).1 = none :=
  ⟨(shiftLeft_spec ⟨5, [], none, none, 0⟩ [10, 11] 4 1).1 (by decide),
   (shiftLeft_spec ⟨5, [], none, none, 0⟩ [10, 11] 2 3).2 (by decide)⟩

/-! ## C5: comparator circuits -/

/-- Evaluating concatenated gate lists is sequential composition. -/
theorem evalGates_append (g1 g2 : List CGate) (env : Nat → Bool) :
    evalGates (g1 ++ g2) env = evalGates g2 (evalGates g1 env) := by
  induction g1 generalizing env with
  | nil => rfl
  | cons g gs ih =>
    simp only [List.cons_append, evalGates]
    exact ih _

/-- The borrow chain computes the strict comparison of the bits below,
refined by the carried-in borrow on ties. -/
theorem ltChain_spec :
    ∀ (xs ys : List Bool) (bin : Bool), xs.length = ys.length →
      ltChain bin xs ys =
        decide (bitsVal xs < bitsVal ys ∨
          (bitsVal xs = bitsVal ys ∧ bin = true)) := by
  intro xs
  induction xs with
  | nil =>
    intro ys bin h
    cases ys with
    | nil => cases bin <;> simp [ltChain, bitsVal]
    | cons b t => simp at h
  | cons a xs ih =>
    intro ys bin h
    cases ys with
    | nil => simp at h
    | cons b ys =>
      simp only [ltChain]
      rw [ih ys (fullLtSpec a b bin) (by simpa using h)]
      simp only [decide_eq_decide]
      cases a <;> cases b <;> cases bin <;>
        simp [bitsVal, fullLtSpec] <;> omega

/-- The half comparator feeding the head bits into the chain computes the
full strict comparison. -/
theorem ltChain_head (x0 y0 : Bool) (xs ys : List Bool)
    (h : xs.length = ys.length) :
    ltChain (!x0 && y0) xs ys =
      decide (bitsVal (x0 :: xs) < bitsVal (y0 :: ys)) := by
  rw [ltChain_spec xs ys _ h]
  simp only [decide_eq_decide]
  cases x0 <;> cases y0 <;> simp [bitsVal] <;> omega

/-- `NewHalfLtComparator` appends two gates that set `bout` to
`!a AND b` and touch no other existing wire. -/
theorem halfLt_spec (c : CC) (a b bout : Nat)
    (ha : a < c.nextWire) (hb : b < c.nextWire) (hbo : bout < c.nextWire) :
    ∃ Δ, (newHalfLtComparator c a b bout).gates = c.gates ++ Δ ∧
      (newHalfLtComparator c a b bout).nextWire = c.nextWire + 1 ∧
      ∀ env : Nat → Bool,
        evalGates Δ env bout = (!(env a) && env b) ∧
        ∀ v, v ≠ bout → v < c.nextWire → evalGates Δ env v = env v := by
  refine ⟨[newINV a c.nextWire, newBinary .AND c.nextWire b bout], ?_, rfl, ?_⟩
  · simp [newHalfLtComparator, CC.newWire, CC.addGate, List.append_assoc]
  · intro env
    have hbne : b ≠ c.nextWire := by omega
    have hbone : bout ≠ c.nextWire := by omega
    constructor
    · simp [evalGates, newINV, newBinary, GateOp.evalOp, hbne]
    · intro v hv hvlt
      have h1 : v ≠ c.nextWire := by omega
      simp [evalGates, newINV, newBinary, GateOp.evalOp, h1, hv]

/-- `NewFullLtComparator` appends six gates that set `bout` to the borrow
function `(b AND !a) OR (bin AND !(a XOR b))` and touch no other existing
wire. -/
theorem fullLt_spec (c : CC) (a b bin bout : Nat)
    (ha : a < c.nextWire) (hb : b < c.nextWire) (hbin : bin < c.nextWire)
    (hbo : bout < c.nextWire) :
    ∃ Δ, (newFullLtComparator c a b bin bout).gates = c.gates ++ Δ ∧
      (newFullLtComparator c a b bin bout).nextWire = c.nextWire + 5 ∧
      ∀ env : Nat → Bool,
        evalGates Δ env bout = fullLtSpec (env a) (env b) (env bin) ∧
        ∀ v, v ≠ bout → v < c.nextWire → evalGates Δ env v = env v := by
  refine ⟨[newBinary .XOR a b c.nextWire, newINV a (c.nextWire + 1),
    newBinary .AND b (c.nextWire + 1) (c.nextWire + 2),
    newINV c.nextWire (c.nextWire + 3),
    newBinary .AND bin (c.nextWire + 3) (c.nextWire + 4),
    newBinary .OR (c.nextWire + 2) (c.nextWire + 4) bout], ?_, rfl, ?_⟩
  · simp [newFullLtComparator, CC.newWire, CC.addGate, List.append_assoc]
  · intro env
    have n1 : a ≠ c.nextWire := by omega
    have n2 : a ≠ c.nextWire + 1 := by omega
    have n3 : a ≠ c.nextWire + 2 := by omega
    have n4 : a ≠ c.nextWire + 3 := by omega
    have n5 : b ≠ c.nextWire := by omega
    have n6 : b ≠ c.nextWire + 1 := by omega
    have n7 : bin ≠ c.nextWire := by omega
    have n8 : bin ≠ c.nextWire + 1 := by omega
    have n9 : bin ≠ c.nextWire + 2 := by omega
    have n10 : bin ≠ c.nextWire + 3 := by omega
    have n11 : bout ≠ c.nextWire := by omega
    have n12 : bout ≠ c.nextWire + 1 := by omega
    have n13 : bout ≠ c.nextWire + 2 := by omega
    have n14 : bout ≠ c.nextWire + 3 := by omega
    have n15 : bout ≠ c.nextWire + 4 := by omega
    constructor
    · simp [evalGates, newINV, newBinary, GateOp.evalOp, fullLtSpec,
        n1, n2, n3, n4, n5, n6, n7, n8, n9, n10, n11, n12, n13, n14, n15]
    · intro v hv hvlt
      have m1 : v ≠ c.nextWire := by omega
      have m2 : v ≠ c.nextWire + 1 := by omega
      have m3 : v ≠ c.nextWire + 2 := by omega
      have m4 : v ≠ c.nextWire + 3 := by omega
      have m5 : v ≠ c.nextWire + 4 := by omega
      simp [evalGates, newINV, newBinary, GateOp.evalOp,
        m1, m2, m3, m4, m5, hv]

/-- The borrow-chain loop of `NewLtComparator` computes `ltChain` into the
result wire `r0` and touches no other existing wire. -/
theorem ltChainLoop_spec (r0 : Nat) :
    ∀ (xs ys : List Nat) (c : CC) (bin : Nat),
      xs.length = ys.length → xs ≠ [] →
      (∀ v ∈ xs, v < c.nextWire) → (∀ v ∈ ys, v < c.nextWire) →
      bin < c.nextWire → r0 < c.nextWire →
      ∃ Δ, (ltChainLoop r0 c bin xs ys).gates = c.gates ++ Δ ∧
        c.nextWire ≤ (ltChainLoop r0 c bin xs ys).nextWire ∧
        ∀ env : Nat → Bool,
          evalGates Δ env r0 =
            ltChain (env bin) (xs.map env) (ys.map env) ∧
          ∀ v, v ≠ r0 → v < c.nextWire → evalGates Δ env v = env v := by
  intro xs
  induction xs with
  | nil => intro ys c bin _ hne; exact absurd rfl hne
  | cons x xs ih =>
    intro ys c bin hlen _ hxw hyw hbin hr
    cases ys with
    | nil => simp at hlen
    | cons y ys =>
      have hxc : x < c.nextWire := hxw x (by simp)
      have hyc : y < c.nextWire := hyw y (by simp)
      cases xs with
      | nil =>
        cases ys with
        | cons y2 ys2 => simp at hlen
        | nil =>
          obtain ⟨Δ, hg, hnw, heval⟩ := fullLt_spec c x y bin r0 hxc hyc hbin hr
          have hred : ltChainLoop r0 c bin [x] [y]
              = newFullLtComparator c x y bin r0 := rfl
          rw [hred]
          refine ⟨Δ, hg, by rw [hnw]; omega, ?_⟩
          intro env
          obtain ⟨h1, h2⟩ := heval env
          exact ⟨by simpa [ltChain] using h1, h2⟩
      | cons x2 xs2 =>
        cases ys with
        | nil => simp at hlen
        | cons y2 ys2 =>
          -- allocate the intermediate borrow wire, emit one stage, recurse
          have hred : ltChainLoop r0 c bin (x :: x2 :: xs2) (y :: y2 :: ys2)
              = ltChainLoop r0
                  (newFullLtComparator { c with nextWire := c.nextWire + 1 }
                    x y bin c.nextWire) c.nextWire (x2 :: xs2) (y2 :: ys2) :=
            rfl
          rw [hred]
          obtain ⟨Δ1, hg1, hnw1, heval1⟩ :=
            fullLt_spec { c with nextWire := c.nextWire + 1 } x y bin
              c.nextWire (by simp; omega) (by simp; omega) (by simp; omega)
              (by simp)
          set c2 := newFullLtComparator { c with nextWire := c.nextWire + 1 }
            x y bin c.nextWire with hc2
          have hnw2 : c2.nextWire = c.nextWire + 6 := by
            rw [hc2, hnw1]
          have hg2c : c2.gates = c.gates ++ Δ1 := by
            rw [hc2, hg1]
          have hlen2 : (x2 :: xs2).length = (y2 :: ys2).length := by
            simpa using hlen
          obtain ⟨Δ2, hg2, hnw3, heval2⟩ := ih (y2 :: ys2) c2 c.nextWire
            hlen2 (by simp)
            (by intro v hv; have := hxw v (List.mem_cons_of_mem _ hv); omega)
            (by intro v hv; have := hyw v (List.mem_cons_of_mem _ hv); omega)
            (by omega) (by omega)
          refine ⟨Δ1 ++ Δ2, ?_, by omega, ?_⟩
          · rw [hg2, hg2c]
            simp [List.append_assoc]
          · intro env
            rw [evalGates_append]
            obtain ⟨e1, e2⟩ := heval1 env
            obtain ⟨f1, f2⟩ := heval2 (evalGates Δ1 env)
            constructor
            · rw [f1]
              have hmx : (x2 :: xs2).map (evalGates Δ1 env) =
                  (x2 :: xs2).map env := by
                apply List.map_congr_left
                intro v hv
                have hvw := hxw v (List.mem_cons_of_mem _ hv)
                exact e2 v (by omega) (by simp; omega)
              have hmy : (y2 :: ys2).map (evalGates Δ1 env) =
                  (y2 :: ys2).map env := by
                apply List.map_congr_left
                intro v hv
                have hvw := hyw v (List.mem_cons_of_mem _ hv)
                exact e2 v (by omega) (by simp; omega)
              rw [e1, hmx, hmy]
              simp [ltChain]
            · intro v hv hvlt
              rw [f2 v hv (by omega)]
              exact e2 v (by omega) (by simp; omega)

/-- `NewLtComparator` on equal-length operands and a single result wire:
the emitted gates set `r0` to the strict unsigned comparison of the
little-endian values. -/
theorem newLtComparator_spec (c : CC) (x y : List Nat) (r0 : Nat)
    (hlen : x.length = y.length) (hne : x ≠ [])
    (hx : ∀ v ∈ x, v < c.nextWire) (hy : ∀ v ∈ y, v < c.nextWire)
    (hr : r0 < c.nextWire) :
    ∃ c' Δ, newLtComparator c x y [r0] = .ok c' ∧
      c'.gates = c.gates ++ Δ ∧ c.nextWire ≤ c'.nextWire ∧
      ∀ env : Nat → Bool,
        evalGates Δ env r0 =
          decide (bitsVal (x.map env) < bitsVal (y.map env)) ∧
        ∀ v, v ≠ r0 → v < c.nextWire → evalGates Δ env v = env v := by
  have hzp : CC.zeroPad c x y = (x, y, c) := by
    simp [CC.zeroPad, hlen]
  cases x with
  | nil => exact absurd rfl hne
  | cons x0 xt =>
    cases y with
    | nil => simp at hlen
    | cons y0 yt =>
      have hx0 : x0 < c.nextWire := hx x0 (by simp)
      have hy0 : y0 < c.nextWire := hy y0 (by simp)
      cases xt with
      | nil =>
        cases yt with
        | cons yy tt => simp at hlen
        | nil =>
          obtain ⟨Δ, hg, hnw, heval⟩ := halfLt_spec c x0 y0 r0 hx0 hy0 hr
          refine ⟨newHalfLtComparator c x0 y0 r0, Δ, ?_, hg,
            by rw [hnw]; omega, ?_⟩
          · simp only [newLtComparator, hzp]
          · intro env
            obtain ⟨h1, h2⟩ := heval env
            refine ⟨?_, h2⟩
            rw [h1]
            cases henvx : env x0 <;> cases henvy : env y0 <;>
              simp [bitsVal, henvx, henvy]
      | cons x1 xs =>
        cases yt with
        | nil => simp at hlen
        | cons y1 ys =>
          obtain ⟨Δ0, hg0, hnw0, heval0⟩ :=
            halfLt_spec { c with nextWire := c.nextWire + 1 } x0 y0
              c.nextWire (by simp; omega) (by simp; omega) (by simp)
          set c3 := newHalfLtComparator { c with nextWire := c.nextWire + 1 }
            x0 y0 c.nextWire with hc3
          have hnwc3 : c3.nextWire = c.nextWire + 2 := by rw [hc3, hnw0]
          have hgc3 : c3.gates = c.gates ++ Δ0 := by rw [hc3, hg0]
          obtain ⟨Δ1, hg1, hnw1, heval1⟩ := ltChainLoop_spec r0
            (x1 :: xs) (y1 :: ys) c3 c.nextWire (by simpa using hlen)
            (by simp)
            (by intro v hv; have := hx v (List.mem_cons_of_mem _ hv); omega)
            (by intro v hv; have := hy v (List.mem_cons_of_mem _ hv); omega)
            (by omega) (by omega)
          refine ⟨ltChainLoop r0 c3 c.nextWire (x1 :: xs) (y1 :: ys),
            Δ0 ++ Δ1, ?_, ?_, by omega, ?_⟩
          · simp only [newLtComparator, hzp]
            rfl
          · rw [hg1, hgc3]
            simp [List.append_assoc]
          · intro env
            rw [evalGates_append]
            obtain ⟨e1, e2⟩ := heval0 env
            obtain ⟨f1, f2⟩ := heval1 (evalGates Δ0 env)
            constructor
            · rw [f1]
              have hmx : (x1 :: xs).map (evalGates Δ0 env) =
                  (x1 :: xs).map env := by
                apply List.map_congr_left
                intro v hv
                have hvw := hx v (List.mem_cons_of_mem _ hv)
                exact e2 v (by omega) (by simp; omega)
              have hmy : (y1 :: ys).map (evalGates Δ0 env) =
                  (y1 :: ys).map env := by
                apply List.map_congr_left
                intro v hv
                have hvw := hy v (List.mem_cons_of_mem _ hv)
                exact e2 v (by omega) (by simp; omega)
              rw [e1, hmx, hmy]
              rw [ltChain_head (env x0) (env y0) ((x1 :: xs).map env)
                ((y1 :: ys).map env) (by simpa using hlen)]
              simp
            · intro v hv hvlt
              rw [f2 v hv (by omega)]
              exact e2 v (by omega) (by simp; omega)

/-- `NewLeComparator` negates the operand-swapped LT circuit: the emitted
gates set `r0` to the non-strict unsigned comparison. -/
theorem newLeComparator_spec (c : CC) (x y : List Nat) (r0 : Nat)
    (hlen : x.length = y.length) (hne : x ≠ [])
    (hx : ∀ v ∈ x, v < c.nextWire) (hy : ∀ v ∈ y, v < c.nextWire)
    (hr : r0 < c.nextWire) :
    ∃ c' Δ, newLeComparator c x y [r0] = .ok c' ∧
      c'.gates = c.gates ++ Δ ∧
      ∀ env : Nat → Bool,
        evalGates Δ env r0 =
          decide (bitsVal (x.map env) ≤ bitsVal (y.map env)) := by
  have hzp : CC.zeroPad c x y = (x, y, c) := by
    simp [CC.zeroPad, hlen]
  have hyne : y ≠ [] := by
    intro hcon
    rw [hcon] at hlen
    simp at hlen
    exact hne hlen
  obtain ⟨c3, Δ1, hok, hg1, hnw1, heval1⟩ :=
    newLtComparator_spec { c with nextWire := c.nextWire + 1 } y x
      c.nextWire hlen.symm hyne
      (by intro v hv; have := hy v hv; simp; omega)
      (by intro v hv; have := hx v hv; simp; omega)
      (by simp)
  refine ⟨c3.addGate (newINV c.nextWire r0), Δ1 ++ [newINV c.nextWire r0],
    ?_, ?_, ?_⟩
  · have hnwv : c.newWire =
        (c.nextWire, { c with nextWire := c.nextWire + 1 }) := rfl
    simp only [newLeComparator, hzp, hnwv]
    rw [hok]
  · rw [CC.addGate, hg1]
    simp [List.append_assoc]
  · intro env
    rw [evalGates_append]
    obtain ⟨e1, _⟩ := heval1 env
    have hstep : evalGates [newINV c.nextWire r0] (evalGates Δ1 env) r0
        = !(evalGates Δ1 env c.nextWire) := by
      simp [evalGates, newINV, GateOp.evalOp]
    rw [hstep, e1, ← decide_not]
    simp only [Nat.not_lt]

/-- Both comparator builders reject a result vector whose length is not
one. -/
theorem comparator_arity_error (c : CC) (x y : List Nat) (r : List Nat)
    (hr : r.length ≠ 1) :
    newLtComparator c x y r = .error "invalid lt comparator arguments" ∧
    newLeComparator c x y r = .error "Invalid le comparator arguments" := by
  cases r with
  | nil => exact ⟨rfl, rfl⟩
  | cons a t =>
    cases t with
    | nil => simp at hr
    | cons b t2 => exact ⟨rfl, rfl⟩

/-- C5: for equal-length (zero-padded) wire vectors carrying little-endian
unsigned values, the single output wire of `NewLtComparator` evaluates to 1
exactly when `value(x) < value(y)`, `NewLeComparator` (the negated swapped
LT circuit) evaluates to 1 exactly when `value(x) <= value(y)`, and both
return an error when the result vector does not have length 1. -/
theorem comparators_correct (c : CC) (x y : List Nat) (r0 : Nat)
    (env : Nat → Bool)
    (hlen : x.length = y.length) (hne : x ≠ [])
    (hx : ∀ v ∈ x, v < c.nextWire) (hy : ∀ v ∈ y, v < c.nextWire)
    (hr : r0 < c.nextWire) :
    (∃ c' Δ, newLtComparator c x y [r0] = .ok c' ∧
      c'.gates = c.gates ++ Δ ∧
      evalGates Δ env r0 =
        decide (bitsVal (x.map env) < bitsVal (y.map env))) ∧
    (∃ c' Δ, newLeComparator c x y [r0] = .ok c' ∧
      c'.gates = c.gates ++ Δ ∧
      evalGates Δ env r0 =
        decide (bitsVal (x.map env) ≤ bitsVal (y.map env))) ∧
    (∀ r : List Nat, r.length ≠ 1 →
      newLtComparator c x y r = .error "invalid lt comparator arguments" ∧
      newLeComparator c x y r = .error "Invalid le comparator arguments") := by
  refine ⟨?_, ?_, fun r hrr => comparator_arity_error c x y r hrr⟩
  · obtain ⟨c', Δ, hok, hg, _, heval⟩ :=
      newLtComparator_spec c x y r0 hlen hne hx hy hr
    exact ⟨c', Δ, hok, hg, (heval env).1⟩
  · obtain ⟨c', Δ, hok, hg, heval⟩ :=
      newLeComparator_spec c x y r0 hlen hne hx hy hr
    exact ⟨c', Δ, hok, hg, heval env⟩

/-- Witness for `comparators_correct`: with `x` on wires 0, 1 carrying the
value 1 and `y` on wires 2, 3 carrying the value 2, the LT output is true,
the LE output is true, and a two-wire result vector is rejected. -/
theorem comparators_correct_witness :
    (∃ c' Δ, newLtComparator ⟨5, [], none, none, 0⟩ [0, 1] [2, 3] [4]
        = .ok c' ∧
      c'.gates = ([] : List CGate) ++ Δ ∧
      evalGates Δ (fun w => decide (w = 0 ∨ w = 3)) 4 =
        decide (bitsVal ([0, 1].map (fun w => decide (w = 0 ∨ w = 3))) <
          bitsVal ([2, 3].map (fun w => decide (w = 0 ∨ w = 3))))) ∧
    (∃ c' Δ, newLeComparator ⟨5, [], none, none, 0⟩ [0, 1] [2, 3] [4]
        = .ok c' ∧
      c'.gates = ([] : List CGate) ++ Δ ∧
      evalGates Δ (fun w => decide (w = 0 ∨ w = 3)) 4 =
        decide (bitsVal ([0, 1].map (fun w => decide (w = 0 ∨ w = 3))) ≤
          bitsVal ([2, 3].map (fun w => decide (w = 0 ∨ w = 3))))) ∧
    (∀ r : List Nat, r.length ≠ 1 →
      newLtComparator ⟨5, [], none, none, 0⟩ [0, 1] [2, 3] r =
        .error "invalid lt comparator arguments" ∧
      newLeComparator ⟨5, [], none, none, 0⟩ [0, 1] [2, 3] r =
        .error "Invalid le comparator arguments") :=
  comparators_correct ⟨5, [], none, none, 0⟩ [0, 1] [2, 3] 4
    (fun w => decide (w = 0 ∨ w = 3)) (by decide) (by decide)
    (by decide) (by decide) (by decide)

end MPC
